import Mathlib

/-!
Verification of the muddle label-and-rule dependency engine
(src/muddled/depend.py, src/muddled/commands.py, src/muddled/distribute.py)
against its natural-language specification.

The Python code is shallowly embedded: Python sets and dicts of Labels are
modelled as lists whose membership test compares labels by their
(type, domain, name, role, tag) tuple (Python's Label.__hash__ / __cmp__
ignore the transient and system flags), Python None is modelled as
Option.none, and functions that raise exceptions return Option / Except.
-/

namespace Muddle

/-- Characters allowed inside a label part: the Python regular-expression
character class A-Za-z0-9._+- from depend.py (label_part). -/
def isPartChar (c : Char) : Bool :=
  c.isAlpha || c.isDigit || c = '.' || c = '_' || c = '+' || c = '-'

/-- Characters allowed inside the flags group of a label string: the Python
regular-expression character class A-Za-z0-9 from label_string_re. -/
def isFlagChar (c : Char) : Bool :=
  c.isAlpha || c.isDigit

/-- A valid label part: either a nonempty run of part characters or exactly
the wildcard star, as checked by Label._check_value via label_part_re
(the match must cover the whole value). -/
def part_ok (s : String) : Bool :=
  (!s.data.isEmpty && s.data.all isPartChar) || s == "*"

/-- The muddle Label from depend.py: a (type, domain, name, role, tag)
tuple with two flags.  Python stores None in `domain` and `role` when they
are absent.  The `transient` and `system` attributes normally hold Python
booleans but Label.re_tag assigns None to them, so they are modelled as
Option Bool (none = Python None). -/
structure Label where
  type : String
  domain : Option String
  name : String
  role : Option String
  tag : String
  transient : Option Bool
  system : Option Bool
deriving DecidableEq, Repr

/-- Label.as_tuple: the (type, domain, name, role, tag) tuple used by
__cmp__ and __hash__; it omits the transient and system flags. -/
def as_tuple (l : Label) : String × Option String × String × Option String × String :=
  (l.type, l.domain, l.name, l.role, l.tag)

/-- Python equality of labels (Label.__cmp__ == 0), i.e. equality of
as_tuple; this is the equality used by Python sets and dicts of labels. -/
def labelBEq (a b : Label) : Bool :=
  as_tuple a == as_tuple b

/-- Membership of a label in a list, under Python label equality. -/
def memL (l : Label) (ls : List Label) : Bool :=
  ls.any (fun x => labelBEq l x)

/-- Python set.add on a list model: append unless already a member. -/
def addL (l : Label) (ls : List Label) : List Label :=
  if memL l ls then ls else ls ++ [l]

/-- Helper for dedupL, carrying the members seen so far. -/
def dedupAux (seen : List Label) : List Label → List Label
  | [] => []
  | l :: ls => if memL l seen then dedupAux seen ls else l :: dedupAux (seen ++ [l]) ls

/-- Building a Python set from a list of labels: keep the first occurrence
of each distinct (by as_tuple) label. -/
def dedupL (ls : List Label) : List Label :=
  dedupAux [] ls

/-- Specificity score of one mandatory label part pair in Label.match:
0 when equal, 1 wildcard counted when they differ and one side is the
star, no match otherwise. -/
def fieldScore (x y : String) : Option Nat :=
  if x = y then some (0) else if x = "*" ∨ y = "*" then some (1) else none

/-- Specificity score of one optional (domain or role) label part pair in
Label.match.  Python compares None == "*" as False, so only a present
star is a wildcard. -/
def fieldScoreOpt (x y : Option String) : Option Nat :=
  if x = y then some (0) else if x = some ("*") ∨ y = some ("*") then some (1) else none

/-- Label.match from depend.py: the five parts are compared in sequence;
any conflicting non-wildcard pair aborts with None, otherwise the result
is minus the number of wildcard positions used. -/
def label_match (a b : Label) : Option Int :=
  match fieldScore a.type b.type, fieldScoreOpt a.domain b.domain,
        fieldScore a.name b.name, fieldScoreOpt a.role b.role,
        fieldScore a.tag b.tag with
  | some n1, some n2, some n3, some n4, some n5 =>
      some (-(((n1 + n2 + n3 + n4 + n5 : Nat)) : Int))
  | _, _, _, _, _ => none

/-- Label.match_without_tag: identical type, domain, name and role. -/
def match_without_tag (a b : Label) : Bool :=
  a.type == b.type && a.domain == b.domain && a.name == b.name && a.role == b.role

/-- Label.re_tag from depend.py: a copy of the label with the tag replaced;
the system and transient attributes are unconditionally assigned the
optional arguments, whose Python defaults are None (here none). -/
def re_tag (l : Label) (new_tag : String) (system transient : Option Bool) : Label :=
  { l with tag := new_tag, system := system, transient := transient }

/-- Modelled from the spec: Label.copy_with_tag is called throughout
commands.py and distribute.py but is not defined under src/ (depend.py
defines only re_tag).  Spec 4.1 describes it: with_tag(new_tag) → Label
is a value-preserving copy, so only the tag field changes. -/
def copy_with_tag (l : Label) (new_tag : String) : Label :=
  { l with tag := new_tag }

/-- Python truthiness of an optional string attribute (None and the empty
string are falsy). -/
def optTruthy : Option String → Bool
  | none => false
  | some s => !s.isEmpty

/-- Python truthiness of the transient / system attribute (None and False
are falsy). -/
def flagTruthy : Option Bool → Bool
  | some b => b
  | none => false

/-- Label.__str__ from depend.py: type:(domain)name{role}/tag with an
optional [TS] suffix when transient or system is truthy. -/
def label_str (l : Label) : String :=
  let basename := if optTruthy l.role then l.name ++ "\x7b" ++ l.role.getD ("") ++ "\x7d" else l.name
  let domainStr := if optTruthy l.domain then "(" ++ l.domain.getD ("") ++ ")" else ""
  let rv := l.type ++ ":" ++ domainStr ++ basename ++ "/" ++ l.tag
  if flagTruthy l.transient || flagTruthy l.system then
    rv ++ "[" ++ (if flagTruthy l.transient then ("T") else ("")) ++
      (if flagTruthy l.system then ("S") else ("")) ++ "]"
  else rv

/-- The result of matching label_string_re against a full label string:
the six capture groups (domain, role and flags may be absent). -/
structure RawLabel where
  rtype : String
  rdomain : Option String
  rname : String
  rrole : Option String
  rtag : String
  rflags : Option String
deriving DecidableEq, Repr

/-- One label_part of label_string_re: a star, or a maximal nonempty run
of part characters.  The regular expression never needs to backtrack into
a shorter run because every character that can legally follow a part
(colon, parentheses, braces, slash, brackets) is outside the part class. -/
def takePart : List Char → Option (String × List Char)
  | [] => none
  | c :: cs =>
    if c = '*' then some (("*", cs))
    else if isPartChar c then
      some ((((c :: cs).takeWhile isPartChar).asString, (c :: cs).dropWhile isPartChar))
    else none

/-- Consume one expected literal character. -/
def expectChar (c : Char) : List Char → Option (List Char)
  | [] => none
  | x :: xs => if x = c then some (xs) else none

/-- The optional (domain) group.  When the input starts with an opening
parenthesis the group must match (a name can never start with one, so the
regex cannot succeed with the group skipped); otherwise it is absent. -/
def parseDomainPart : List Char → Option (Option String × List Char)
  | [] => some ((none, []))
  | c :: cs =>
    if c = '(' then
      match takePart cs with
      | some ((d, rest)) =>
        match rest with
        | [] => none
        | e :: rest2 => if e = ')' then some ((some (d), rest2)) else none
      | none => none
    else some ((none, c :: cs))

/-- The optional {role} group, whose inner role part is itself optional:
an empty pair of braces yields an absent role. -/
def parseRolePart : List Char → Option (Option String × List Char)
  | [] => some ((none, []))
  | c :: cs =>
    if c = '\x7b' then
      match cs with
      | [] => none
      | d :: rest =>
        if d = '\x7d' then some ((none, rest))
        else
          match takePart (d :: rest) with
          | some ((r, rest2)) =>
            match rest2 with
            | [] => none
            | e :: rest3 => if e = '\x7d' then some ((some (r), rest3)) else none
          | none => none
    else some ((none, c :: cs))

/-- The optional [flags] trailer followed by end of input (the Python code
checks m.end() == len(label_string), so anything left over is an error).
The flags group needs at least one A-Za-z0-9 character: an empty pair of
brackets does not match. -/
def parseFlagsPart : List Char → Option (Option String)
  | [] => some (none)
  | c :: cs =>
    if c = '[' then
      let run := cs.takeWhile isFlagChar
      let rest := cs.dropWhile isFlagChar
      if run.isEmpty then none
      else
        match rest with
        | [e] => if e = ']' then some (some (run.asString)) else none
        | _ => none
    else none

/-- Matching label_string_re against a whole label string (together with
the m.end() == len check of Label.from_string). -/
def parse_label_string (cs : List Char) : Option RawLabel :=
  match takePart cs with
  | none => none
  | some ((ty, r1)) =>
    match expectChar ':' r1 with
    | none => none
    | some r2 =>
      match parseDomainPart r2 with
      | none => none
      | some ((dom, r3)) =>
        match takePart r3 with
        | none => none
        | some ((nm, r4)) =>
          match parseRolePart r4 with
          | none => none
          | some ((role, r5)) =>
            match expectChar '/' r5 with
            | none => none
            | some r6 =>
              match takePart r6 with
              | none => none
              | some ((tg, r7)) =>
                match parseFlagsPart r7 with
                | none => none
                | some fl => some (⟨ty, dom, nm, role, tg, fl⟩)

/-- Label.__init__ from depend.py: checks every part with _check_value
(raising Failure, here none, on a bad part) and stores the fields. -/
def labelInit (ty : String) (nm : String) (role : Option String) (tg : String)
    (transient system : Option Bool) (domain : Option String) : Option Label :=
  if part_ok ty && part_ok nm &&
     (match role with | some r => part_ok r | none => true) &&
     part_ok tg &&
     (match domain with | some d => part_ok d | none => true)
  then some (⟨ty, domain, nm, role, tg, transient, system⟩)
  else none

/-- The Python test `flags and c in flags`: false for an absent flags
group, membership otherwise. -/
def flags_contains (fl : Option String) (c : Char) : Bool :=
  match fl with
  | some f => f.data.contains c
  | none => false

/-- Label.from_string from depend.py: match label_string_re against the
whole string, then build the Label; the transient and system flags are
set when the flags group contains a T or an S character.  A failed match
raises utils.Failure, modelled as none. -/
def from_string (s : String) : Option Label :=
  match parse_label_string s.data with
  | none => none
  | some raw =>
    labelInit raw.rtype raw.rname raw.rrole raw.rtag
      (some (flags_contains raw.rflags 'T')) (some (flags_contains raw.rflags 'S'))
      raw.rdomain

/-- The braces part of a label string as printed for a present role. -/
def roleStrOf : Option String → String
  | some r => "\x7b" ++ r ++ "\x7d"
  | none => ""

/-- The parentheses part of a label string for a present domain. -/
def domainStrOf : Option String → String
  | some d => "(" ++ d ++ ")"
  | none => ""

/-- The brackets part of a label string for a present flags group. -/
def flagsStrOf : Option String → String
  | some f => "[" ++ f ++ "]"
  | none => ""

/-- Assembling a label string from its parts, following the grammar
type:(domain)name{role}/tag[flags] with the optional groups omitted when
absent (so no empty braces pair and no empty brackets pair appear). -/
def mk_label_string (ty : String) (dom : Option String) (nm : String)
    (role : Option String) (tg : String) (fl : Option String) : String :=
  ty ++ ":" ++ domainStrOf dom ++ nm ++ roleStrOf role ++ "/" ++ tg ++ flagsStrOf fl

/-- A Rule from depend.py: a target label, an optional action object (the
Dependable), and a set of dependency labels, modelled as a list. -/
structure Rule (α : Type) where
  target : Label
  obj : Option α
  deps : List Label
deriving DecidableEq, Repr

/-- Rule.add: add a dependency label (set add). -/
def rule_add_dep (r : Rule α) (l : Label) : Rule α :=
  { r with deps := addL l r.deps }

/-- Rule.merge: union the dependency sets; a non-None obj of the merged
rule replaces ours. -/
def rule_merge (r other : Rule α) : Rule α :=
  { r with deps := other.deps.foldl (fun ds d => addL d ds) r.deps,
           obj := match other.obj with | some o => some (o) | none => r.obj }

/-- RuleSet.add: the RuleSet is a dict keyed by the rule's target; an
existing entry with an equal target is merged, otherwise the rule is
inserted.  The RuleSet.map dict is modelled as the list of its rules,
with at most one rule per distinct target. -/
def ruleset_add : List (Rule α) → Rule α → List (Rule α)
  | [], rule => [rule]
  | r :: rest, rule =>
    if labelBEq r.target rule.target then rule_merge r rule :: rest
    else r :: ruleset_add rest rule

/-- RuleSet.rules_for_target: with useMatch, every rule whose key the
query label matches (label.match(k)); otherwise with useTags an exact
dict lookup; otherwise the rules whose keys match ignoring the tag. -/
def rules_for_target (rs : List (Rule α)) (label : Label) (useTags useMatch : Bool) :
    List (Rule α) :=
  if useMatch then rs.filter (fun r => (label_match label r.target).isSome)
  else if useTags then
    match rs.find? (fun r => labelBEq r.target label) with
    | some r => [r]
    | none => []
  else rs.filter (fun r => match_without_tag r.target label)

/-- RuleSet.targets_match: with useMatch, the keys the target matches
(k.match(target)); otherwise just the target itself. -/
def targets_match (rs : List (Rule α)) (target : Label) (useMatch : Bool) : List Label :=
  if useMatch then (rs.map (fun r => r.target)).filter (fun k => (label_match k target).isSome)
  else [target]

/-- RuleSet.rules_which_depend_on: the rules having some dependency that
matches the label under the selected relation. -/
def rules_which_depend_on (rs : List (Rule α)) (label : Label) (useTags useMatch : Bool) :
    List (Rule α) :=
  rs.filter (fun v =>
    if useMatch then v.deps.any (fun dep => (label_match dep label).isSome)
    else if useTags then v.deps.any (fun dep => labelBEq label dep)
    else v.deps.any (fun dep => match_without_tag dep label))

/-- The failures needed_to_build can raise: utils.Error for a target with
no rules ("Rule list is empty for target"), utils.Error for a circular or
incomplete graph (carrying the residual targets and the partial rule
list), and an out-of-fuel marker for the embedding's loop counter (shown
unreachable below). -/
inductive SolveErr (α : Type) where
  | emptyRules (tgt : Label)
  | circular (targets : List Label) (rule_list : List (Rule α))
  | fuel
deriving DecidableEq, Repr

/-- The inner dependency scan of needed_to_build for one rule's deps:
a dep already satisfied is skipped; an unsatisfied dep is added to
new_targets (setting done_something) when not already pending anywhere;
any unsatisfied dep clears can_build_target. -/
def scanDeps (targetsAll rts : List Label) :
    List Label → List Label → Bool → Bool → List Label × Bool × Bool
  | [], nt, done, can_build => (nt, done, can_build)
  | d :: ds, nt, done, can_build =>
    if memL d rts then scanDeps targetsAll rts ds nt done can_build
    else if !memL d nt && !memL d targetsAll then
      scanDeps targetsAll rts ds (nt ++ [d]) true false
    else scanDeps targetsAll rts ds nt done false

/-- The scan over all rules matching one target in needed_to_build. -/
def scanRules (targetsAll rts : List Label) :
    List (Rule α) → List Label → Bool → Bool → List Label × Bool × Bool
  | [], nt, done, can_build => (nt, done, can_build)
  | r :: rest, nt, done, can_build =>
    match scanDeps targetsAll rts r.deps nt done can_build with
    | (nt2, done2, cb2) => scanRules targetsAll rts rest nt2 done2 cb2

/-- One pass of needed_to_build over the current targets (the Python for
loop): each target with an empty rule list raises; a ready target appends
the loop's last rule to rule_list and joins rule_target_set; an unready
target is re-added to new_targets.  Note that rules_for_target is called
with its useMatch parameter defaulted to True. -/
def processPass (rs : List (Rule α)) (useTags : Bool) (targetsAll : List Label) :
    List Label → List Label → List (Rule α) → List Label → Bool →
    Except (SolveErr α) (List Label × List (Rule α) × List Label × Bool)
  | [], nt, rl, rts, done => Except.ok ((nt, rl, rts, done))
  | tgt :: pending, nt, rl, rts, done =>
    match rules_for_target rs tgt useTags true with
    | [] => Except.error (SolveErr.emptyRules tgt)
    | r0 :: rrest =>
      match scanRules targetsAll rts (r0 :: rrest) nt done true with
      | (nt2, done2, cb) =>
        if cb then
          processPass rs useTags targetsAll pending nt2
            (rl ++ [(r0 :: rrest).getLast (List.cons_ne_nil r0 rrest)])
            (addL tgt rts) true
        else
          processPass rs useTags targetsAll pending (addL tgt nt2) rl rts done2

/-- The while loop of needed_to_build: subtract the satisfied targets,
return the rule list on an empty target set, run one pass, and continue
while the pass did something; a pass that did nothing raises the circular
or incomplete error with the residual targets and the partial rule list.
The loop counter stands in for the Python while loop and is shown never
to run out in needed_fuel_suffices. -/
def solveLoop (rs : List (Rule α)) (useTags : Bool) :
    Nat → List Label → List (Rule α) → List Label → Except (SolveErr α) (List (Rule α))
  | 0, _, _, _ => Except.error (SolveErr.fuel)
  | fuel + 1, targets, rl, rts =>
    let targets2 := targets.filter (fun t => !memL t rts)
    if targets2.isEmpty then Except.ok (rl)
    else
      match processPass rs useTags targets2 targets2 [] rl rts false with
      | Except.error e => Except.error e
      | Except.ok ((nt, rl2, rts2, done)) =>
        if done then solveLoop rs useTags fuel nt rl2 rts2
        else Except.error (SolveErr.circular nt rl2)

/-- Every label the solver can ever place in its target set: the seeds
plus every dependency of every rule. -/
def solveUniverse (rs : List (Rule α)) (seeds : List Label) : List Label :=
  dedupL (seeds ++ (rs.map (fun r => r.deps)).flatten)

/-- Enough loop iterations for needed_to_build: each productive pass
satisfies a universe label or discovers one, so twice the universe plus
slack always suffices. -/
def needed_fuel (rs : List (Rule α)) (seeds : List Label) : Nat :=
  2 * (solveUniverse rs seeds).length + 2

/-- needed_to_build from depend.py: seed the target set from targets_match
and run the work-list loop. -/
def needed_to_build (rs : List (Rule α)) (target : Label) (useTags useMatch : Bool) :
    Except (SolveErr α) (List (Rule α)) :=
  let seeds := dedupL (targets_match rs target useMatch)
  solveLoop rs useTags (needed_fuel rs seeds) seeds [] []

/-- One sweep of the required_by loop: every rule depending on a member
of depends contributes its target to extra unless already in depends. -/
def requiredByPass (rs : List (Rule α)) (useTags useMatch : Bool)
    (depends : List Label) : List Label :=
  depends.foldl (fun extra dep =>
    (rules_which_depend_on rs dep useTags useMatch).foldl (fun extra2 rule =>
      if memL rule.target depends then extra2 else addL rule.target extra2) extra) []

/-- The while loop of required_by, with a loop counter: depends grows by
at least one rule target per iteration, so rules-count plus slack
suffices; exhaustion returns none. -/
def requiredByLoop (rs : List (Rule α)) (useTags useMatch : Bool) :
    Nat → List Label → Option (List Label)
  | 0, _ => none
  | fuel + 1, depends =>
    let extra := requiredByPass rs useTags useMatch depends
    if extra.isEmpty then some (depends)
    else requiredByLoop rs useTags useMatch fuel (extra.foldl (fun ds l => addL l ds) depends)

/-- required_by from depend.py.  Note the initial rules_for_target call
passes useMatch by keyword, leaving useTags at its default True.  An
empty initial rule set raises utils.Failure, modelled as none. -/
def required_by (rs : List (Rule α)) (label : Label) (useTags useMatch : Bool) :
    Option (List Label) :=
  match rules_for_target rs label true useMatch with
  | [] => none
  | r0 :: rrest =>
    let depends := (r0 :: rrest).foldl (fun ds r => addL r.target ds) []
    requiredByLoop rs useTags useMatch (rs.length + 2) depends

/-- The label kind strings used by muddle (muddled.utils LabelType); their
values appear in the depend.py docstrings ("checkout:&lt;co_name&gt;/&lt;tag&gt;" etc.). -/
def kindCheckout : String := "checkout"

/-- The package kind string. -/
def kindPackage : String := "package"

/-- The deployment kind string. -/
def kindDeployment : String := "deployment"

/-- Modelled from the spec: the muddled.utils LabelTag constants are not
under src/.  Spec 3 names the checkout lifecycle tag CheckedOut. -/
def tagCheckedOut : String := "checked_out"

/-- Modelled from the spec: the package lifecycle tag PostInstalled. -/
def tagPostInstalled : String := "postinstalled"

/-- Modelled from the spec: the shared lifecycle tag Distributed. -/
def tagDistributed : String := "distributed"

/-- The tag forcing applied by the decode_args methods of commands.py:
when the command has a required tag and the label's tag differs, the
label is copied with the required tag. -/
def force_tag (required_tag : String) (l : Label) : Label :=
  if required_tag ≠ "" ∧ l.tag ≠ required_tag then copy_with_tag l required_tag else l

/-- The second half of CheckoutCommand.decode_args (commands.py): each
label of the initial list is sorted into the result set; checkout labels
are forced to the required tag; package and deployment labels contribute
the checkout targets of needed_to_build, forced likewise; any other kind
raises GiveUp (none).  Solver failures propagate as none. -/
def checkoutDecodePhase (rs : List (Rule α)) (required_tag : String) :
    List Label → List Label → Option (List Label)
  | [], acc => some (acc)
  | label :: rest, acc =>
    if label.type == kindCheckout then
      checkoutDecodePhase rs required_tag rest (addL (force_tag required_tag label) acc)
    else if label.type == kindPackage || label.type == kindDeployment then
      match needed_to_build rs label true false with
      | Except.error _ => none
      | Except.ok rules =>
        checkoutDecodePhase rs required_tag rest
          (rules.foldl (fun a r =>
            if r.target.type == kindCheckout then addL (force_tag required_tag r.target) a
            else a) acc)
    else none

/-- PackageCommand.packages_from_checkout_label (commands.py): the labels
returned by required_by that are packages in one of the default roles,
forced to the required tag. -/
def packages_from_checkout_label (rs : List (Rule α)) (default_roles : List String)
    (required_tag : String) (label : Label) : Option (List Label) :=
  match required_by rs label true true with
  | none => none
  | some required_labels =>
    some (required_labels.foldl (fun a l =>
      if l.type == kindPackage &&
         (match l.role with | some r => default_roles.contains r | none => false) then
        addL (force_tag required_tag l) a
      else a) [])

/-- The second half of PackageCommand.decode_args (commands.py).  The
deployment test in the source reads `label.type in (LabelType.Deployment)`,
which in Python is a substring test against the string "deployment"
rather than a tuple membership; it is modelled as such. -/
def packageDecodePhase (rs : List (Rule α)) (droles : List String) (required_tag : String) :
    List Label → List Label → Option (List Label)
  | [], acc => some (acc)
  | label :: rest, acc =>
    if label.type == kindPackage then
      packageDecodePhase rs droles required_tag rest (addL (force_tag required_tag label) acc)
    else if label.type == kindCheckout then
      match packages_from_checkout_label rs droles required_tag label with
      | none => none
      | some pkgs =>
        packageDecodePhase rs droles required_tag rest (pkgs.foldl (fun a l => addL l a) acc)
    else if label.type.data <:+: kindDeployment.data then
      match needed_to_build rs label true false with
      | Except.error _ => none
      | Except.ok rules =>
        packageDecodePhase rs droles required_tag rest
          (rules.foldl (fun a r =>
            if r.target.type == kindPackage then addL (force_tag required_tag r.target) a
            else a) acc)
    else none

/-- The action objects of distribute.py: a DistributeCheckout holds a
dict from distribution name to its copy_vcs_dir flag, a DistributePackage
a dict from name to the (binary, source, copy_vcs_dir) triple. -/
inductive DAction where
  | distributeCheckout (distributions : List (String × Bool))
  | distributePackage (distributions : List (String × (Bool × Bool × Bool)))
deriving DecidableEq, Repr

/-- DistributeAction.add_distribution for the checkout data shape:
self.distributions[name] = data inserts, or silently overwrites, the
entry for that name. -/
def add_distribution_checkout : List (String × Bool) → String → Bool → List (String × Bool)
  | [], name, data => [(name, data)]
  | (k, v) :: rest, name, data =>
    if k == name then (k, data) :: rest else (k, v) :: add_distribution_checkout rest name data

/-- Python dict lookup on the distributions association list. -/
def dist_lookup : List (String × Bool) → String → Option Bool
  | [], _ => none
  | (k, v) :: rest, name => if k == name then some (v) else dist_lookup rest name

/-- The failures of the distribute.py request functions: MuddleBug for a
label of the wrong kind, and Python's AttributeError for the re-request
paths, which call methods that do not exist. -/
inductive DistErr where
  | muddleBug
  | attributeError
deriving DecidableEq, Repr

/-- Modelled from the spec: invocation.target_label_exists is not under
src/; per spec 4.5 a target exists when the rule set has a rule for it
(an exact lookup in the RuleSet.map dict). -/
def target_label_exists (rs : List (Rule α)) (label : Label) : Bool :=
  rs.any (fun r => labelBEq label r.target)

/-- distribute_checkout from distribute.py.  When a rule for the
/distributed target already exists the code fetches ruleset.map[target]
— a Rule — and calls add_distribution on it; the Rule class of depend.py
defines no add_distribution method, so Python raises AttributeError
there.  Otherwise a fresh rule with a DistributeCheckout action and the
/checked_out source dependency is added. -/
def distribute_checkout (rs : List (Rule DAction)) (name : String) (label : Label)
    (copy_vcs_dir : Bool) : Except DistErr (List (Rule DAction)) :=
  if label.type ≠ kindCheckout then Except.error (DistErr.muddleBug)
  else
    let source_label := copy_with_tag label tagCheckedOut
    let target_label := copy_with_tag label tagDistributed
    if target_label_exists rs target_label then Except.error (DistErr.attributeError)
    else
      Except.ok (ruleset_add rs
        (rule_add_dep (⟨target_label, some (DAction.distributeCheckout [(name, copy_vcs_dir)]), []⟩)
          source_label))

/-- distribute_package from distribute.py.  The re-request path calls
add_context_name on ruleset.map[target] — a method defined neither on
Rule nor on any DistributeAction class — so Python raises AttributeError
there; note the binary, source and copy_vcs_dir arguments are not even
mentioned on that path.  Otherwise a fresh rule with a DistributePackage
action (whose constructor stores (binary, source, copy_vcs_dir) under the
name) and the /postinstalled source dependency is added. -/
def distribute_package (rs : List (Rule DAction)) (name : String) (label : Label)
    (binary source copy_vcs_dir : Bool) : Except DistErr (List (Rule DAction)) :=
  if label.type ≠ kindPackage then Except.error (DistErr.muddleBug)
  else
    let source_label := copy_with_tag label tagPostInstalled
    let target_label := copy_with_tag label tagDistributed
    if target_label_exists rs target_label then Except.error (DistErr.attributeError)
    else
      Except.ok (ruleset_add rs
        (rule_add_dep
          (⟨target_label, some (DAction.distributePackage [(name, (binary, source, copy_vcs_dir))]), []⟩)
          source_label))

/-- Python 2 string comparison: lexicographic by character code (label
parts are ASCII, so byte order and code-point order agree). -/
def cmpChars : List Char → List Char → Ordering
  | [], [] => Ordering.eq
  | [], _ :: _ => Ordering.lt
  | _ :: _, [] => Ordering.gt
  | a :: xs, b :: ys =>
    if a < b then Ordering.lt else if b < a then Ordering.gt else cmpChars xs ys

/-- Python 2 comparison of two strings. -/
def cmp_str (a b : String) : Ordering :=
  cmpChars a.data b.data

/-- Python 2 comparison of optional strings: None sorts before any
string, and None equals only None. -/
def cmp_opt_str : Option String → Option String → Ordering
  | none, none => Ordering.eq
  | none, some _ => Ordering.lt
  | some _, none => Ordering.gt
  | some a, some b => cmp_str a b

/-- Label.__cmp__ from depend.py: Python 2 lexicographic comparison of
the as_tuple tuples, one component after the other. -/
def label_cmp (a b : Label) : Ordering :=
  (cmp_str a.type b.type).then
    ((cmp_opt_str a.domain b.domain).then
      ((cmp_str a.name b.name).then
        ((cmp_opt_str a.role b.role).then (cmp_str a.tag b.tag))))

/-- Python equality of two labels, as derived from __cmp__ == 0. -/
def label_eq (a b : Label) : Bool :=
  match label_cmp a b with
  | Ordering.eq => true
  | _ => false

/-- Label.__hash__ from depend.py: the hash of the as_tuple tuple, so a
function of the five tuple components only. -/
def label_hash (l : Label) : UInt64 :=
  hash (as_tuple l)

/-- Replace both flags of a label, leaving the five tuple components
alone; used to state flag independence. -/
def set_flags (l : Label) (t s : Option Bool) : Label :=
  { l with transient := t, system := s }

/-- The number of positions at which two labels differ, over the five
as_tuple components. -/
def count_diffs (a b : Label) : Nat :=
  (if a.type = b.type then 0 else 1) + (if a.domain = b.domain then 0 else 1) +
    (if a.name = b.name then 0 else 1) + (if a.role = b.role then 0 else 1) +
    (if a.tag = b.tag then 0 else 1)

example : from_string ("package:busybox/installed") =
    some (⟨"package", none, "busybox", none, "installed", some (false), some (false)⟩) := by decide

example : from_string ("package:busybox{}/installed[]") = none := by decide

example : from_string ("package:(arm.hello)busybox{firmware}/installed[ABT]") =
    some (⟨"package", some ("arm.hello"), "busybox", some ("firmware"), "installed",
      some (true), some (false)⟩) := by decide

example : from_string ("package:()busybox/x") = none := by decide

example : label_str (⟨"package", some ("d"), "busybox", some ("r"), "x", some (true), some (true)⟩) =
    "package:(d)busybox\x7br\x7d/x[TS]" := by decide

example : label_match (⟨"a", none, "*", none, "t", none, none⟩)
    (⟨"a", none, "n", none, "t", none, none⟩) = some (-1) := by decide

example :
    needed_to_build
      [(⟨⟨"p", none, "a", none, "x", none, none⟩, (none : Option Unit), [⟨"p", none, "b", none, "y", none, none⟩]⟩ : Rule Unit),
       ⟨⟨"p", none, "*", none, "y", none, none⟩, none, []⟩]
      (⟨"p", none, "a", none, "x", none, none⟩) true false =
    Except.ok
      [⟨⟨"p", none, "*", none, "y", none, none⟩, none, []⟩,
       ⟨⟨"p", none, "a", none, "x", none, none⟩, none, [⟨"p", none, "b", none, "y", none, none⟩]⟩] := by rfl

example :
    needed_to_build
      [(⟨⟨"p", none, "a", none, "x", none, none⟩, (none : Option Unit), [⟨"p", none, "b", none, "x", none, none⟩]⟩ : Rule Unit)]
      (⟨"p", none, "a", none, "x", none, none⟩) true true =
    Except.error (SolveErr.emptyRules (⟨"p", none, "b", none, "x", none, none⟩)) := by rfl

example :
    needed_to_build
      [(⟨⟨"p", none, "a", none, "x", none, none⟩, (none : Option Unit), [⟨"p", none, "b", none, "x", none, none⟩]⟩ : Rule Unit),
       ⟨⟨"p", none, "b", none, "x", none, none⟩, none, [⟨"p", none, "a", none, "x", none, none⟩]⟩]
      (⟨"p", none, "a", none, "x", none, none⟩) true true =
    Except.error (SolveErr.circular
      [⟨"p", none, "b", none, "x", none, none⟩, ⟨"p", none, "a", none, "x", none, none⟩] []) := by rfl

lemma cmpChars_eq_iff (xs : List Char) : ∀ ys, cmpChars xs ys = Ordering.eq ↔ xs = ys := by
  induction xs with
  | nil => intro ys; cases ys <;> simp [cmpChars]
  | cons a xs ih =>
    intro ys
    cases ys with
    | nil => simp [cmpChars]
    | cons b ys =>
      simp only [cmpChars]
      split_ifs with h1 h2
      · constructor
        · intro h; exact absurd h (by decide)
        · intro h; injection h with h3 h4; subst h3; exact absurd h1 (lt_irrefl a)
      · constructor
        · intro h; exact absurd h (by decide)
        · intro h; injection h with h3 h4; subst h3; exact absurd h2 (lt_irrefl a)
      · have hab : a = b := le_antisymm (not_lt.mp h2) (not_lt.mp h1)
        subst hab
        rw [ih ys]
        simp

lemma cmp_str_eq_iff (a b : String) : cmp_str a b = Ordering.eq ↔ a = b := by
  unfold cmp_str
  rw [cmpChars_eq_iff]
  constructor
  · intro h; cases a; cases b; simp only at h; rw [h]
  · intro h; rw [h]

lemma cmp_opt_str_eq_iff (a b : Option String) : cmp_opt_str a b = Ordering.eq ↔ a = b := by
  cases a <;> cases b <;> simp [cmp_opt_str, cmp_str_eq_iff]

lemma ordering_then_eq (o p : Ordering) :
    o.then p = Ordering.eq ↔ o = Ordering.eq ∧ p = Ordering.eq := by
  cases o <;> simp [Ordering.then]

lemma label_cmp_eq_iff (a b : Label) : label_cmp a b = Ordering.eq ↔ as_tuple a = as_tuple b := by
  unfold label_cmp as_tuple
  simp [ordering_then_eq, cmp_str_eq_iff, cmp_opt_str_eq_iff, Prod.ext_iff, and_assoc]

/-- C6: Python equality of labels holds exactly when the two as_tuple
5-tuples are equal; the comparison is the lexicographic order of those
tuples, unchanged by any values of the transient and system flags; and
equal tuples hash alike — so all three operations ignore the flags. -/
theorem C6_eq_ord_hash_ignore_flags :
    ∀ a b : Label,
      (label_eq a b = true ↔ as_tuple a = as_tuple b) ∧
      (∀ t s t2 s2, label_cmp (set_flags a t s) (set_flags b t2 s2) = label_cmp a b) ∧
      (as_tuple a = as_tuple b → label_hash a = label_hash b) := by
  intro a b
  refine ⟨?_, ?_, ?_⟩
  · rw [← label_cmp_eq_iff]
    unfold label_eq
    cases label_cmp a b <;> simp
  · intro t s t2 s2; rfl
  · intro h; unfold label_hash; rw [h]

/-- A pair of labels with identical tuples but different flags. -/
def exFlagA : Label := ⟨"package", none, "busybox", none, "built", some (true), none⟩

/-- The flag-varied twin of exFlagA. -/
def exFlagB : Label := ⟨"package", none, "busybox", none, "built", some (false), some (true)⟩

theorem C6_witness :
    as_tuple exFlagA = as_tuple exFlagB ∧ label_hash exFlagA = label_hash exFlagB ∧
      label_eq exFlagA exFlagB = true :=
  ⟨by decide, (C6_eq_ord_hash_ignore_flags exFlagA exFlagB).2.2 (by decide),
   (C6_eq_ord_hash_ignore_flags exFlagA exFlagB).1.mpr (by decide)⟩

lemma fieldScore_some {x y : String} {n : Nat} (h : fieldScore x y = some (n)) :
    n = if x = y then 0 else 1 := by
  unfold fieldScore at h
  split_ifs at h with h1 h2 <;> simp_all

lemma fieldScoreOpt_some {x y : Option String} {n : Nat} (h : fieldScoreOpt x y = some (n)) :
    n = if x = y then 0 else 1 := by
  unfold fieldScoreOpt at h
  split_ifs at h with h1 h2 <;> simp_all

/-- C10: Label.match is reflexive with score 0 — even on labels that
contain wildcard parts, equal parts are never counted — and in general a
successful score is exactly minus the number of differing positions
(each of which must then have a wildcard on one side). -/
theorem C10_match_reflexive :
    ∀ a : Label,
      label_match a a = some (0) ∧
      (∀ b : Label, ∀ n : Int, label_match a b = some (n) →
        n = -((count_diffs a b : Nat) : Int)) := by
  intro a
  constructor
  · unfold label_match fieldScore fieldScoreOpt
    simp
  · intro b n h
    unfold label_match at h
    rcases h1 : fieldScore a.type b.type with _ | n1 <;>
      rcases h2 : fieldScoreOpt a.domain b.domain with _ | n2 <;>
      rcases h3 : fieldScore a.name b.name with _ | n3 <;>
      rcases h4 : fieldScoreOpt a.role b.role with _ | n4 <;>
      rcases h5 : fieldScore a.tag b.tag with _ | n5 <;>
      rw [h1, h2, h3, h4, h5] at h <;> simp at h
    have e1 := fieldScore_some h1
    have e2 := fieldScoreOpt_some h2
    have e3 := fieldScore_some h3
    have e4 := fieldScoreOpt_some h4
    have e5 := fieldScore_some h5
    subst e1 e2 e3 e4 e5
    unfold count_diffs
    push_cast at h ⊢
    omega

/-- A doubly wildcarded label. -/
def exWildA : Label := ⟨"*", none, "busybox", none, "*", none, none⟩

/-- A concrete label differing from exWildA at the two wildcards. -/
def exWildB : Label := ⟨"package", none, "busybox", none, "built", none, none⟩

theorem C10_witness :
    label_match exWildA exWildA = some (0) ∧
      label_match exWildA exWildB = some (-2) ∧
      (-2 : Int) = -((count_diffs exWildA exWildB : Nat) : Int) :=
  ⟨(C10_match_reflexive exWildA).1, by decide,
   (C10_match_reflexive exWildA).2 exWildB (-2) (by decide)⟩

/-- A transient, system label for exercising re_tag. -/
def exTransient : Label := ⟨"package", none, "busybox", none, "built", some (true), some (true)⟩

/-- C5 (code bug): re_tag called with only a new tag, as in the claim's
re_tag(L, t), does not keep the flag values of L — the Python defaults
None are assigned over them, clearing a true transient and a true system
flag to None — although the method's own docstring promises a copy of
self with only the tag changed. -/
theorem C5_code_bug_re_tag_clears_flags :
    re_tag exTransient ("installed") none none =
      ⟨"package", none, "busybox", none, "installed", none, none⟩ ∧
      exTransient.transient = some (true) ∧ exTransient.system = some (true) ∧
      (re_tag exTransient ("installed") none none).transient = none ∧
      (re_tag exTransient ("installed") none none).system = none := by decide

/-- C4 (code bug): the Label docstring says "type:name/tag" and
"type:name{}/tag[]" are identical, and an empty role part {} is indeed
accepted and ignored — but the flags group of label_string_re demands at
least one character between the brackets, so every string ending in the
empty flags part [] fails to parse (the match stops before the bracket
and the full-length check then fails). -/
theorem C4_code_bug_empty_flags_rejected :
    from_string ("package:busybox/installed") =
      some (⟨"package", none, "busybox", none, "installed", some (false), some (false)⟩) ∧
    from_string ("package:busybox\x7b\x7d/installed") =
      some (⟨"package", none, "busybox", none, "installed", some (false), some (false)⟩) ∧
    from_string ("package:busybox\x7b\x7d/installed[]") = none ∧
    from_string ("package:busybox/installed[]") = none := by decide

lemma str_ext {s t : String} (h : s.data = t.data) : s = t := by
  cases s; cases t; exact congrArg String.mk h

lemma asString_data (s : String) : s.data.asString = s := rfl

lemma data_colon : (":" : String).data = [':'] := rfl

lemma data_slash : ("/" : String).data = ['/'] := rfl

lemma data_lpar : ("(" : String).data = ['('] := rfl

lemma data_rpar : (")" : String).data = [')'] := rfl

lemma data_lbrace : ("\x7b" : String).data = ['\x7b'] := rfl

lemma data_rbrace : ("\x7d" : String).data = ['\x7d'] := rfl

lemma data_lbrack : ("[" : String).data = ['['] := rfl

lemma data_rbrack : ("]" : String).data = [']'] := rfl

lemma data_empty : ("" : String).data = [] := rfl

lemma data_tee : ("T" : String).data = ['T'] := rfl

lemma data_ess : ("S" : String).data = ['S'] := rfl

lemma data_tees : ("TS" : String).data = ['T', 'S'] := rfl

lemma data_star : ("*" : String).data = ['*'] := rfl

lemma head_cons_elim {c d : Char} {l : List Char} (h : (d :: l).head? = some (c)) : c = d := by
  simp only [List.head?_cons, Option.some.injEq] at h
  exact h.symm

lemma takeWhile_app (q : Char → Bool) (l r : List Char) (hl : ∀ c ∈ l, q c = true)
    (hr : ∀ c, r.head? = some (c) → q c = false) :
    (l ++ r).takeWhile q = l ∧ (l ++ r).dropWhile q = r := by
  induction l with
  | nil =>
    cases r with
    | nil => simp
    | cons c cr =>
      have := hr c rfl
      simp [List.takeWhile_cons, List.dropWhile_cons, this]
  | cons a l ih =>
    have ha : q a = true := hl a (List.mem_cons_self a l)
    simp only [List.cons_append, List.takeWhile_cons, List.dropWhile_cons, ha, if_pos]
    constructor
    · exact congrArg (List.cons a) (ih (fun c hc => hl c (List.mem_cons_of_mem a hc))).1
    · exact (ih (fun c hc => hl c (List.mem_cons_of_mem a hc))).2

lemma part_ok_cases {p : String} (hp : part_ok p = true) :
    p = "*" ∨ (p.data ≠ [] ∧ ∀ c ∈ p.data, isPartChar c = true) := by
  unfold part_ok at hp
  rw [Bool.or_eq_true] at hp
  rcases hp with h | h
  · rw [Bool.and_eq_true] at h
    right
    constructor
    · intro he
      rw [he] at h
      simp at h
    · intro c hc
      exact List.all_eq_true.mp h.2 c hc
  · left
    exact eq_of_beq h

lemma part_head (p : String) (hp : part_ok p = true) :
    ∃ c cs, p.data = c :: cs ∧ (isPartChar c = true ∨ c = '*') := by
  rcases part_ok_cases hp with rfl | ⟨hne, hall⟩
  · exact ⟨'*', [], rfl, Or.inr rfl⟩
  · rcases h : p.data with _ | ⟨c, cs⟩
    · exact absurd h hne
    · exact ⟨c, cs, rfl, Or.inl (hall c (by rw [h]; exact List.mem_cons_self c cs))⟩

lemma part_not_empty {p : String} (hp : part_ok p = true) : p.isEmpty = false := by
  obtain ⟨c, cs, hd, _⟩ := part_head p hp
  rw [← Bool.not_eq_true, String.isEmpty_iff]
  intro he
  rw [he] at hd
  cases hd

lemma takePart_append (p : String) (rest : List Char) (hp : part_ok p = true)
    (hrest : ∀ c, rest.head? = some (c) → isPartChar c = false) :
    takePart (p.data ++ rest) = some ((p, rest)) := by
  rcases part_ok_cases hp with rfl | ⟨hne, hall⟩
  · simp [takePart, data_star]
  · rcases hcons : p.data with _ | ⟨c, cs⟩
    · exact absurd hcons hne
    · have hc : isPartChar c = true := hall c (by rw [hcons]; exact List.mem_cons_self c cs)
      have hcstar : ¬ c = '*' := by
        intro e
        rw [e, show isPartChar '*' = false from by decide] at hc
        cases hc
      have happ := takeWhile_app isPartChar (c :: cs) rest
        (fun x hx => hall x (by rw [hcons]; exact hx)) hrest
      simp only [takePart, List.cons_append, if_neg hcstar, hc, if_pos]
      simp only [List.cons_append] at happ
      rw [happ.1, happ.2, ← hcons, asString_data]

lemma parseDomainPart_skip (c : Char) (rest : List Char) (hc : ¬ c = '(') :
    parseDomainPart (c :: rest) = some ((none, c :: rest)) := by
  simp [parseDomainPart, hc]

lemma parseRolePart_skip (c : Char) (rest : List Char) (hc : ¬ c = '\x7b') :
    parseRolePart (c :: rest) = some ((none, c :: rest)) := by
  simp [parseRolePart, hc]

lemma parseDomain_mk (dom : Option String) (X : List Char)
    (hdom : ∀ d, dom = some (d) → part_ok d = true)
    (hX : ∀ c, X.head? = some (c) → (isPartChar c = true ∨ c = '*')) :
    parseDomainPart ((domainStrOf dom).data ++ X) = some ((dom, X)) := by
  rcases dom with _ | d
  · simp only [domainStrOf, data_empty, List.nil_append]
    cases X with
    | nil => rfl
    | cons c rest =>
      apply parseDomainPart_skip
      intro e
      rcases hX c rfl with h | h
      · rw [e, show isPartChar '(' = false from by decide] at h; cases h
      · rw [e] at h; exact absurd h (by decide)
  · have hd := hdom d rfl
    simp only [domainStrOf, String.data_append, data_lpar, data_rpar, List.append_assoc,
      List.singleton_append, List.cons_append, List.nil_append]
    simp only [parseDomainPart, eq_self_iff_true, if_true]
    rw [takePart_append d (')' :: X) hd
      (by intro c hc; rw [head_cons_elim hc]; decide)]
    simp

lemma parseRole_mk (role : Option String) (X : List Char)
    (hrole : ∀ r, role = some (r) → part_ok r = true)
    (hX : ∀ c, X.head? = some (c) → (isPartChar c = false ∧ ¬ c = '\x7b' ∧ ¬ c = '*')) :
    parseRolePart ((roleStrOf role).data ++ X) = some ((role, X)) := by
  rcases role with _ | r
  · simp only [roleStrOf, data_empty, List.nil_append]
    cases X with
    | nil => rfl
    | cons c rest =>
      exact parseRolePart_skip c rest (hX c rfl).2.1
  · have hr := hrole r rfl
    obtain ⟨c0, cs0, hc0, hp0⟩ := part_head r hr
    simp only [roleStrOf, String.data_append, data_lbrace, data_rbrace, List.append_assoc,
      List.singleton_append, List.cons_append, List.nil_append]
    simp only [parseRolePart, eq_self_iff_true, if_true]
    rw [hc0]
    simp only [List.cons_append]
    have hcb : ¬ c0 = '\x7d' := by
      intro e
      rcases hp0 with h | h
      · rw [e, show isPartChar '\x7d' = false from by decide] at h; cases h
      · rw [e] at h; exact absurd h (by decide)
    rw [if_neg hcb]
    rw [← List.cons_append, ← hc0,
      takePart_append r ('\x7d' :: X) hr (by intro c hc; rw [head_cons_elim hc]; decide)]
    simp

lemma parseFlags_mk (fl : Option String)
    (hfl : ∀ f, fl = some (f) → f.data ≠ [] ∧ ∀ x ∈ f.data, isFlagChar x = true) :
    parseFlagsPart ((flagsStrOf fl).data) = some (fl) := by
  rcases fl with _ | f
  · rfl
  · have hf := hfl f rfl
    simp only [flagsStrOf, String.data_append, data_lbrack, data_rbrack, List.append_assoc,
      List.singleton_append, List.cons_append, List.nil_append]
    simp only [parseFlagsPart, eq_self_iff_true, if_true]
    have happ := takeWhile_app isFlagChar f.data [']'] hf.2
      (by intro c hc; rw [head_cons_elim hc]; decide)
    rw [happ.1, happ.2]
    have hne : f.data.isEmpty = false := by
      rcases h : f.data with _ | ⟨c, cs⟩
      · exact absurd h hf.1
      · rfl
    rw [hne]
    simp [asString_data]

lemma parse_mk (ty nm tg : String) (dom role fl : Option String)
    (hty : part_ok ty = true) (hnm : part_ok nm = true) (htg : part_ok tg = true)
    (hdom : ∀ d, dom = some (d) → part_ok d = true)
    (hrole : ∀ r, role = some (r) → part_ok r = true)
    (hfl : ∀ f, fl = some (f) → f.data ≠ [] ∧ ∀ x ∈ f.data, isFlagChar x = true) :
    parse_label_string (mk_label_string ty dom nm role tg fl).data =
      some (⟨ty, dom, nm, role, tg, fl⟩) := by
  have hd : (mk_label_string ty dom nm role tg fl).data =
      ty.data ++ ':' :: ((domainStrOf dom).data ++ (nm.data ++
        ((roleStrOf role).data ++ '/' :: (tg.data ++ (flagsStrOf fl).data)))) := by
    simp [mk_label_string, String.data_append, data_colon, data_slash, List.append_assoc]
  have e1 : takePart (ty.data ++ ':' :: ((domainStrOf dom).data ++ (nm.data ++
      ((roleStrOf role).data ++ '/' :: (tg.data ++ (flagsStrOf fl).data))))) =
      some ((ty, ':' :: ((domainStrOf dom).data ++ (nm.data ++
        ((roleStrOf role).data ++ '/' :: (tg.data ++ (flagsStrOf fl).data)))))) :=
    takePart_append ty _ hty (by intro c hc; rw [head_cons_elim hc]; decide)
  have e2 : expectChar ':' (':' :: ((domainStrOf dom).data ++ (nm.data ++
      ((roleStrOf role).data ++ '/' :: (tg.data ++ (flagsStrOf fl).data))))) =
      some (((domainStrOf dom).data ++ (nm.data ++
        ((roleStrOf role).data ++ '/' :: (tg.data ++ (flagsStrOf fl).data))))) := by
    simp [expectChar]
  have e3 : parseDomainPart ((domainStrOf dom).data ++ (nm.data ++
      ((roleStrOf role).data ++ '/' :: (tg.data ++ (flagsStrOf fl).data)))) =
      some ((dom, nm.data ++
        ((roleStrOf role).data ++ '/' :: (tg.data ++ (flagsStrOf fl).data)))) := by
    apply parseDomain_mk dom _ hdom
    intro c hc
    obtain ⟨c0, cs0, hc0, hp0⟩ := part_head nm hnm
    rw [hc0, List.cons_append] at hc
    rw [head_cons_elim hc]
    exact hp0
  have e4 : takePart (nm.data ++
      ((roleStrOf role).data ++ '/' :: (tg.data ++ (flagsStrOf fl).data))) =
      some ((nm, (roleStrOf role).data ++ '/' :: (tg.data ++ (flagsStrOf fl).data))) := by
    apply takePart_append nm _ hnm
    intro c hc
    rcases role with _ | r
    · simp only [roleStrOf, data_empty, List.nil_append] at hc
      rw [head_cons_elim hc]
      decide
    · simp only [roleStrOf, String.data_append, data_lbrace, data_rbrace, List.append_assoc,
        List.singleton_append, List.cons_append] at hc
      rw [head_cons_elim hc]
      decide
  have e5 : parseRolePart ((roleStrOf role).data ++ '/' :: (tg.data ++ (flagsStrOf fl).data)) =
      some ((role, '/' :: (tg.data ++ (flagsStrOf fl).data))) := by
    apply parseRole_mk role _ hrole
    intro c hc
    rw [head_cons_elim hc]
    refine ⟨by decide, by decide, by decide⟩
  have e6 : expectChar '/' ('/' :: (tg.data ++ (flagsStrOf fl).data)) =
      some ((tg.data ++ (flagsStrOf fl).data)) := by
    simp [expectChar]
  have e7 : takePart (tg.data ++ (flagsStrOf fl).data) =
      some ((tg, (flagsStrOf fl).data)) := by
    apply takePart_append tg _ htg
    intro c hc
    rcases fl with _ | f
    · simp [flagsStrOf, data_empty] at hc
    · simp only [flagsStrOf, String.data_append, data_lbrack, data_rbrack, List.append_assoc,
        List.singleton_append, List.cons_append] at hc
      rw [head_cons_elim hc]
      decide
  have e8 : parseFlagsPart ((flagsStrOf fl).data) = some (fl) := parseFlags_mk fl hfl
  rw [hd]
  simp only [parse_label_string, e1, e2, e3, e4, e5, e6, e7, e8]

/-- The normalized flags group for given transient and system values: a
subset of TS in that order, with the whole group omitted when empty. -/
def flagsNorm (t sy : Bool) : Option String :=
  if t then (if sy then some ("TS") else some ("T"))
  else (if sy then some ("S") else none)

lemma label_str_mk (ty nm tg : String) (dom role : Option String) (t sy : Bool)
    (hdom : ∀ d, dom = some (d) → part_ok d = true)
    (hrole : ∀ r, role = some (r) → part_ok r = true) :
    label_str (⟨ty, dom, nm, role, tg, some (t), some (sy)⟩) =
      mk_label_string ty dom nm role tg (flagsNorm t sy) := by
  apply str_ext
  rcases role with _ | r <;> rcases dom with _ | d
  · rcases t <;> rcases sy <;>
      simp [label_str, mk_label_string, optTruthy, flagTruthy, roleStrOf, domainStrOf,
        flagsStrOf, flagsNorm, String.data_append, data_colon, data_slash, data_empty,
        data_lbrack, data_rbrack, data_tee, data_ess, data_tees, List.append_assoc]
  · have hd := part_not_empty (hdom d rfl)
    rcases t <;> rcases sy <;>
      simp [label_str, mk_label_string, optTruthy, flagTruthy, roleStrOf, domainStrOf,
        flagsStrOf, flagsNorm, String.data_append, data_colon, data_slash, data_empty,
        data_lpar, data_rpar, data_lbrack, data_rbrack, data_tee, data_ess, data_tees,
        List.append_assoc, hd]
  · have hr := part_not_empty (hrole r rfl)
    rcases t <;> rcases sy <;>
      simp [label_str, mk_label_string, optTruthy, flagTruthy, roleStrOf, domainStrOf,
        flagsStrOf, flagsNorm, String.data_append, data_colon, data_slash, data_empty,
        data_lbrace, data_rbrace, data_lbrack, data_rbrack, data_tee, data_ess, data_tees,
        List.append_assoc, hr]
  · have hd := part_not_empty (hdom d rfl)
    have hr := part_not_empty (hrole r rfl)
    rcases t <;> rcases sy <;>
      simp [label_str, mk_label_string, optTruthy, flagTruthy, roleStrOf, domainStrOf,
        flagsStrOf, flagsNorm, String.data_append, data_colon, data_slash, data_empty,
        data_lpar, data_rpar, data_lbrace, data_rbrace, data_lbrack, data_rbrack,
        data_tee, data_ess, data_tees, List.append_assoc, hd, hr]

lemma from_string_mk (ty nm tg : String) (dom role fl : Option String)
    (hty : part_ok ty = true) (hnm : part_ok nm = true) (htg : part_ok tg = true)
    (hdom : ∀ d, dom = some (d) → part_ok d = true)
    (hrole : ∀ r, role = some (r) → part_ok r = true)
    (hfl : ∀ f, fl = some (f) → f.data ≠ [] ∧ ∀ x ∈ f.data, isFlagChar x = true)
    (t sy : Bool)
    (ht : flags_contains fl 'T' = t)
    (hsy : flags_contains fl 'S' = sy) :
    from_string (mk_label_string ty dom nm role tg fl) =
      some (⟨ty, dom, nm, role, tg, some (t), some (sy)⟩) := by
  unfold from_string
  rw [parse_mk ty nm tg dom role fl hty hnm htg hdom hrole hfl]
  simp only []
  rw [ht, hsy]
  rcases role with _ | r <;> rcases dom with _ | d
  · simp [labelInit, hty, hnm, htg]
  · simp [labelInit, hty, hnm, htg, hdom d rfl]
  · simp [labelInit, hty, hnm, htg, hrole r rfl]
  · simp [labelInit, hty, hnm, htg, hrole r rfl, hdom d rfl]

/-- C3: for every syntactically valid label string with normalized flags
(a subset of TS in that order, brackets omitted when empty) and no empty
braces or parentheses — i.e. every string assembled by mk_label_string
from valid parts with such a flags group — printing the parsed label
returns exactly the original string. -/
theorem C3_label_roundtrip :
    ∀ (ty nm tg : String) (dom role fl : Option String),
      part_ok ty = true → part_ok nm = true → part_ok tg = true →
      (∀ d, dom = some (d) → part_ok d = true) →
      (∀ r, role = some (r) → part_ok r = true) →
      (fl = none ∨ fl = some ("T") ∨ fl = some ("S") ∨ fl = some ("TS")) →
      ∃ L, from_string (mk_label_string ty dom nm role tg fl) = some (L) ∧
        label_str L = mk_label_string ty dom nm role tg fl := by
  intro ty nm tg dom role fl hty hnm htg hdom hrole hfl
  rcases hfl with rfl | rfl | rfl | rfl
  · refine ⟨⟨ty, dom, nm, role, tg, some (false), some (false)⟩, ?_, ?_⟩
    · exact from_string_mk ty nm tg dom role none hty hnm htg hdom hrole
        (by intro f hf; cases hf) false false rfl rfl
    · rw [label_str_mk ty nm tg dom role false false hdom hrole]
      rfl
  · refine ⟨⟨ty, dom, nm, role, tg, some (true), some (false)⟩, ?_, ?_⟩
    · exact from_string_mk ty nm tg dom role (some ("T")) hty hnm htg hdom hrole
        (by intro f hf; cases hf; exact ⟨by decide, by decide⟩) true false
        (by decide) (by decide)
    · rw [label_str_mk ty nm tg dom role true false hdom hrole]
      rfl
  · refine ⟨⟨ty, dom, nm, role, tg, some (false), some (true)⟩, ?_, ?_⟩
    · exact from_string_mk ty nm tg dom role (some ("S")) hty hnm htg hdom hrole
        (by intro f hf; cases hf; exact ⟨by decide, by decide⟩) false true
        (by decide) (by decide)
    · rw [label_str_mk ty nm tg dom role false true hdom hrole]
      rfl
  · refine ⟨⟨ty, dom, nm, role, tg, some (true), some (true)⟩, ?_, ?_⟩
    · exact from_string_mk ty nm tg dom role (some ("TS")) hty hnm htg hdom hrole
        (by intro f hf; cases hf; exact ⟨by decide, by decide⟩) true true
        (by decide) (by decide)
    · rw [label_str_mk ty nm tg dom role true true hdom hrole]
      rfl

theorem C3_witness :
    ∃ L,
      from_string (mk_label_string ("package") (some ("arm")) ("busybox") (some ("x86"))
        ("installed") (some ("TS"))) = some (L) ∧
      label_str L = mk_label_string ("package") (some ("arm")) ("busybox") (some ("x86"))
        ("installed") (some ("TS")) :=
  C3_label_roundtrip ("package") ("busybox") ("installed") (some ("arm")) (some ("x86"))
    (some ("TS")) (by decide) (by decide) (by decide)
    (by intro d h; cases h; decide) (by intro r h; cases h; decide)
    (Or.inr (Or.inr (Or.inr rfl)))

lemma labelBEq_refl (x : Label) : labelBEq x x = true := by
  simp [labelBEq]

lemma labelBEq_iff {x y : Label} : labelBEq x y = true ↔ as_tuple x = as_tuple y := by
  simp [labelBEq]

lemma memL_congr {x y : Label} (h : labelBEq x y = true) (ls : List Label) :
    memL x ls = memL y ls := by
  unfold memL
  congr 1
  funext z
  unfold labelBEq
  rw [labelBEq_iff.mp h]

lemma memL_addL_mono {x : Label} (y : Label) {ls : List Label} (h : memL x ls = true) :
    memL x (addL y ls) = true := by
  unfold addL
  split_ifs with hy
  · exact h
  · unfold memL at h ⊢
    rw [List.any_append]
    simp [h]

lemma memL_addL_self (y : Label) (ls : List Label) : memL y (addL y ls) = true := by
  unfold addL
  split_ifs with hy
  · exact hy
  · unfold memL
    rw [List.any_append]
    simp [labelBEq_refl]

lemma mem_addL {x y : Label} {ls : List Label} (h : x ∈ addL y ls) : x = y ∨ x ∈ ls := by
  unfold addL at h
  split_ifs at h with hy
  · exact Or.inr h
  · rcases List.mem_append.mp h with h2 | h2
    · exact Or.inr h2
    · simp at h2
      exact Or.inl h2

lemma foldl_preserves_memL {β : Type} (f : List Label → β → List Label)
    (hf : ∀ a i x, memL x a = true → memL x (f a i) = true)
    (xs : List β) (acc : List Label) (x : Label) (h : memL x acc = true) :
    memL x (xs.foldl f acc) = true := by
  induction xs generalizing acc with
  | nil => exact h
  | cons i xs ih => exact ih (f acc i) (hf acc i x h)

lemma foldl_prop {β : Type} (g : List Label → β → List Label) (P : Label → Prop)
    (hg : ∀ a i, (∀ x ∈ a, P x) → ∀ x ∈ g a i, P x)
    (xs : List β) (acc : List Label) (hacc : ∀ x ∈ acc, P x) :
    ∀ x ∈ xs.foldl g acc, P x := by
  induction xs generalizing acc with
  | nil => exact hacc
  | cons i xs ih => exact ih (g acc i) (hg acc i hacc)

lemma foldl_prop_mem {β : Type} (g : List Label → β → List Label) (P : Label → Prop)
    (xs : List β) (hg : ∀ a i, i ∈ xs → (∀ x ∈ a, P x) → ∀ x ∈ g a i, P x)
    (acc : List Label) (hacc : ∀ x ∈ acc, P x) :
    ∀ x ∈ xs.foldl g acc, P x := by
  induction xs generalizing acc with
  | nil => exact hacc
  | cons i xs ih =>
    refine ih (fun a j hj => hg a j (List.mem_cons_of_mem i hj)) (g acc i)
      (hg acc i (List.mem_cons_self i xs) hacc)

lemma force_tag_spec (rt : String) (l : Label) (h : rt ≠ "") :
    (force_tag rt l).tag = rt ∧ (force_tag rt l).type = l.type ∧
      labelBEq (force_tag rt l) (copy_with_tag l rt) = true := by
  unfold force_tag copy_with_tag
  by_cases hc : rt ≠ "" ∧ l.tag ≠ rt
  · rw [if_pos hc]
    refine ⟨rfl, rfl, ?_⟩
    exact labelBEq_refl _
  · rw [if_neg hc]
    push_neg at hc
    have ht : l.tag = rt := hc h
    refine ⟨ht, rfl, ?_⟩
    rw [labelBEq_iff]
    unfold as_tuple
    rw [ht]

lemma checkoutPhase_mono {α : Type} (rs : List (Rule α)) (rt : String) :
    ∀ il acc res, checkoutDecodePhase rs rt il acc = some (res) →
      ∀ x, memL x acc = true → memL x res = true := by
  intro il
  induction il with
  | nil =>
    intro acc res h x hx
    simp only [checkoutDecodePhase, Option.some.injEq] at h
    rw [← h]
    exact hx
  | cons label rest ih =>
    intro acc res h x hx
    simp only [checkoutDecodePhase] at h
    by_cases hc : (label.type == kindCheckout) = true
    · rw [if_pos hc] at h
      exact ih _ res h x (memL_addL_mono _ hx)
    · rw [if_neg hc] at h
      by_cases hc2 : (label.type == kindPackage || label.type == kindDeployment) = true
      · rw [if_pos hc2] at h
        rcases hnb : needed_to_build rs label true false with e | rules
        · rw [hnb] at h
          cases h
        · rw [hnb] at h
          refine ih _ res h x ?_
          refine foldl_preserves_memL _ ?_ rules acc x hx
          intro a i y hy
          by_cases hi : (i.target.type == kindCheckout) = true
          · rw [if_pos hi]
            exact memL_addL_mono _ hy
          · rw [if_neg hi]
            exact hy
      · rw [if_neg hc2] at h
        cases h

lemma checkoutPhase_mem {α : Type} (rs : List (Rule α)) (rt : String) (hrt : rt ≠ "") :
    ∀ il acc res, checkoutDecodePhase rs rt il acc = some (res) →
      ∀ l ∈ il, l.type = kindCheckout → memL (copy_with_tag l rt) res = true := by
  intro il
  induction il with
  | nil =>
    intro acc res h l hl
    cases hl
  | cons label rest ih =>
    intro acc res h l hl hty
    simp only [checkoutDecodePhase] at h
    rcases List.mem_cons.mp hl with rfl | hl2
    · have hc : (l.type == kindCheckout) = true := by rw [hty]; exact beq_self_eq_true _
      rw [if_pos hc] at h
      have hmem : memL (copy_with_tag l rt) (addL (force_tag rt l) acc) = true := by
        rw [← memL_congr (force_tag_spec rt l hrt).2.2]
        exact memL_addL_self _ _
      exact checkoutPhase_mono rs rt rest _ res h _ hmem
    · by_cases hc : (label.type == kindCheckout) = true
      · rw [if_pos hc] at h
        exact ih _ res h l hl2 hty
      · rw [if_neg hc] at h
        by_cases hc2 : (label.type == kindPackage || label.type == kindDeployment) = true
        · rw [if_pos hc2] at h
          rcases hnb : needed_to_build rs label true false with e | rules
          · rw [hnb] at h
            cases h
          · rw [hnb] at h
            exact ih _ res h l hl2 hty
        · rw [if_neg hc2] at h
          cases h

lemma checkoutPhase_forced {α : Type} (rs : List (Rule α)) (rt : String) (hrt : rt ≠ "") :
    ∀ il acc res, checkoutDecodePhase rs rt il acc = some (res) →
      (∀ x ∈ acc, x.type = kindCheckout ∧ x.tag = rt) →
      ∀ x ∈ res, x.type = kindCheckout ∧ x.tag = rt := by
  intro il
  induction il with
  | nil =>
    intro acc res h hacc
    simp only [checkoutDecodePhase, Option.some.injEq] at h
    rw [← h]
    exact hacc
  | cons label rest ih =>
    intro acc res h hacc
    simp only [checkoutDecodePhase] at h
    by_cases hc : (label.type == kindCheckout) = true
    · rw [if_pos hc] at h
      refine ih _ res h ?_
      intro x hx
      rcases mem_addL hx with rfl | hx2
      · exact ⟨(force_tag_spec rt label hrt).2.1.trans (eq_of_beq hc),
          (force_tag_spec rt label hrt).1⟩
      · exact hacc x hx2
    · rw [if_neg hc] at h
      by_cases hc2 : (label.type == kindPackage || label.type == kindDeployment) = true
      · rw [if_pos hc2] at h
        rcases hnb : needed_to_build rs label true false with e | rules
        · rw [hnb] at h
          cases h
        · rw [hnb] at h
          refine ih _ res h ?_
          refine foldl_prop _ _ ?_ rules acc hacc
          intro a i ha x hx
          by_cases hi : (i.target.type == kindCheckout) = true
          · rw [if_pos hi] at hx
            rcases mem_addL hx with rfl | hx2
            · exact ⟨(force_tag_spec rt i.target hrt).2.1.trans (eq_of_beq hi),
                (force_tag_spec rt i.target hrt).1⟩
            · exact ha x hx2
          · rw [if_neg hi] at hx
            exact ha x hx
      · rw [if_neg hc2] at h
        cases h

lemma pkgs_from_co_forced {α : Type} (rs : List (Rule α)) (droles : List String) (rt : String)
    (hrt : rt ≠ "") (label : Label) (pkgs : List Label)
    (h : packages_from_checkout_label rs droles rt label = some (pkgs)) :
    ∀ x ∈ pkgs, x.type = kindPackage ∧ x.tag = rt := by
  unfold packages_from_checkout_label at h
  rcases hrb : required_by rs label true true with _ | depends
  · rw [hrb] at h
    cases h
  · rw [hrb] at h
    simp only [Option.some.injEq] at h
    rw [← h]
    refine foldl_prop _ _ ?_ depends [] (by intro x hx; cases hx)
    intro a i ha x hx
    by_cases hi : (i.type == kindPackage &&
        (match i.role with | some r => droles.contains r | none => false)) = true
    · rw [if_pos hi] at hx
      rcases mem_addL hx with rfl | hx2
      · rw [Bool.and_eq_true] at hi
        exact ⟨(force_tag_spec rt i hrt).2.1.trans (eq_of_beq hi.1),
          (force_tag_spec rt i hrt).1⟩
      · exact ha x hx2
    · rw [if_neg hi] at hx
      exact ha x hx

lemma packagePhase_mono {α : Type} (rs : List (Rule α)) (droles : List String) (rt : String) :
    ∀ il acc res, packageDecodePhase rs droles rt il acc = some (res) →
      ∀ x, memL x acc = true → memL x res = true := by
  intro il
  induction il with
  | nil =>
    intro acc res h x hx
    simp only [packageDecodePhase, Option.some.injEq] at h
    rw [← h]
    exact hx
  | cons label rest ih =>
    intro acc res h x hx
    simp only [packageDecodePhase] at h
    by_cases hc : (label.type == kindPackage) = true
    · rw [if_pos hc] at h
      exact ih _ res h x (memL_addL_mono _ hx)
    · rw [if_neg hc] at h
      by_cases hc2 : (label.type == kindCheckout) = true
      · rw [if_pos hc2] at h
        rcases hpk : packages_from_checkout_label rs droles rt label with _ | pkgs
        · rw [hpk] at h
          cases h
        · rw [hpk] at h
          refine ih _ res h x ?_
          exact foldl_preserves_memL _ (fun a i y hy => memL_addL_mono _ hy) pkgs acc x hx
      · rw [if_neg hc2] at h
        by_cases hc3 : label.type.data <:+: kindDeployment.data
        · rw [if_pos hc3] at h
          rcases hnb : needed_to_build rs label true false with e | rules
          · rw [hnb] at h
            cases h
          · rw [hnb] at h
            refine ih _ res h x ?_
            refine foldl_preserves_memL _ ?_ rules acc x hx
            intro a i y hy
            by_cases hi : (i.target.type == kindPackage) = true
            · rw [if_pos hi]
              exact memL_addL_mono _ hy
            · rw [if_neg hi]
              exact hy
        · rw [if_neg hc3] at h
          cases h

lemma packagePhase_mem {α : Type} (rs : List (Rule α)) (droles : List String) (rt : String)
    (hrt : rt ≠ "") :
    ∀ il acc res, packageDecodePhase rs droles rt il acc = some (res) →
      ∀ l ∈ il, l.type = kindPackage → memL (copy_with_tag l rt) res = true := by
  intro il
  induction il with
  | nil =>
    intro acc res h l hl
    cases hl
  | cons label rest ih =>
    intro acc res h l hl hty
    simp only [packageDecodePhase] at h
    rcases List.mem_cons.mp hl with rfl | hl2
    · have hc : (l.type == kindPackage) = true := by rw [hty]; exact beq_self_eq_true _
      rw [if_pos hc] at h
      have hmem : memL (copy_with_tag l rt) (addL (force_tag rt l) acc) = true := by
        rw [← memL_congr (force_tag_spec rt l hrt).2.2]
        exact memL_addL_self _ _
      exact packagePhase_mono rs droles rt rest _ res h _ hmem
    · by_cases hc : (label.type == kindPackage) = true
      · rw [if_pos hc] at h
        exact ih _ res h l hl2 hty
      · rw [if_neg hc] at h
        by_cases hc2 : (label.type == kindCheckout) = true
        · rw [if_pos hc2] at h
          rcases hpk : packages_from_checkout_label rs droles rt label with _ | pkgs
          · rw [hpk] at h
            cases h
          · rw [hpk] at h
            exact ih _ res h l hl2 hty
        · rw [if_neg hc2] at h
          by_cases hc3 : label.type.data <:+: kindDeployment.data
          · rw [if_pos hc3] at h
            rcases hnb : needed_to_build rs label true false with e | rules
            · rw [hnb] at h
              cases h
            · rw [hnb] at h
              exact ih _ res h l hl2 hty
          · rw [if_neg hc3] at h
            cases h

lemma packagePhase_forced {α : Type} (rs : List (Rule α)) (droles : List String) (rt : String)
    (hrt : rt ≠ "") :
    ∀ il acc res, packageDecodePhase rs droles rt il acc = some (res) →
      (∀ x ∈ acc, x.type = kindPackage ∧ x.tag = rt) →
      ∀ x ∈ res, x.type = kindPackage ∧ x.tag = rt := by
  intro il
  induction il with
  | nil =>
    intro acc res h hacc
    simp only [packageDecodePhase, Option.some.injEq] at h
    rw [← h]
    exact hacc
  | cons label rest ih =>
    intro acc res h hacc
    simp only [packageDecodePhase] at h
    by_cases hc : (label.type == kindPackage) = true
    · rw [if_pos hc] at h
      refine ih _ res h ?_
      intro x hx
      rcases mem_addL hx with rfl | hx2
      · exact ⟨(force_tag_spec rt label hrt).2.1.trans (eq_of_beq hc),
          (force_tag_spec rt label hrt).1⟩
      · exact hacc x hx2
    · rw [if_neg hc] at h
      by_cases hc2 : (label.type == kindCheckout) = true
      · rw [if_pos hc2] at h
        rcases hpk : packages_from_checkout_label rs droles rt label with _ | pkgs
        · rw [hpk] at h
          cases h
        · rw [hpk] at h
          refine ih _ res h ?_
          refine foldl_prop_mem _ _ pkgs ?_ acc hacc
          intro a i hi ha x hx
          rcases mem_addL hx with rfl | hx2
          · exact pkgs_from_co_forced rs droles rt hrt label pkgs hpk x hi
          · exact ha x hx2
      · rw [if_neg hc2] at h
        by_cases hc3 : label.type.data <:+: kindDeployment.data
        · rw [if_pos hc3] at h
          rcases hnb : needed_to_build rs label true false with e | rules
          · rw [hnb] at h
            cases h
          · rw [hnb] at h
            refine ih _ res h ?_
            refine foldl_prop _ _ ?_ rules acc hacc
            intro a i ha x hx
            by_cases hi : (i.target.type == kindPackage) = true
            · rw [if_pos hi] at hx
              rcases mem_addL hx with rfl | hx2
              · exact ⟨(force_tag_spec rt i.target hrt).2.1.trans (eq_of_beq hi),
                  (force_tag_spec rt i.target hrt).1⟩
              · exact ha x hx2
            · rw [if_neg hi] at hx
              exact ha x hx
        · rw [if_neg hc3] at h
          cases h

/-- C7: in the argument-decoding of checkout-category and package-category
commands, every user-supplied label of the command's own kind reaches the
result set with its tag forced to the command's required tag (even when
the user wrote a different explicit tag), and indeed every label of the
result carries the required tag. -/
theorem C7_required_tag_forced {α : Type} :
    ∀ (rs : List (Rule α)) (required_tag : String) (droles : List String) (il : List Label),
      required_tag ≠ "" →
      (∀ res, checkoutDecodePhase rs required_tag il [] = some (res) →
        (∀ l ∈ il, l.type = kindCheckout →
          memL (copy_with_tag l required_tag) res = true) ∧
        (∀ x ∈ res, x.type = kindCheckout ∧ x.tag = required_tag)) ∧
      (∀ res, packageDecodePhase rs droles required_tag il [] = some (res) →
        (∀ l ∈ il, l.type = kindPackage →
          memL (copy_with_tag l required_tag) res = true) ∧
        (∀ x ∈ res, x.type = kindPackage ∧ x.tag = required_tag)) := by
  intro rs required_tag droles il hrt
  constructor
  · intro res h
    exact ⟨checkoutPhase_mem rs required_tag hrt il [] res h,
      checkoutPhase_forced rs required_tag hrt il [] res h (by intro x hx; cases hx)⟩
  · intro res h
    exact ⟨packagePhase_mem rs droles required_tag hrt il [] res h,
      packagePhase_forced rs droles required_tag hrt il [] res h (by intro x hx; cases hx)⟩

/-- A user-written checkout label carrying an explicit tag different from
the command's required tag. -/
def exCmdCo : Label := ⟨"checkout", none, "hello", none, "wrongtag", some (false), some (false)⟩

theorem C7_witness :
    checkoutDecodePhase ([] : List (Rule Unit)) ("checked_out") [exCmdCo] [] =
      some ([⟨"checkout", none, "hello", none, "checked_out", some (false), some (false)⟩]) ∧
    memL (copy_with_tag exCmdCo ("checked_out"))
      [⟨"checkout", none, "hello", none, "checked_out", some (false), some (false)⟩] = true :=
  ⟨rfl,
   ((C7_required_tag_forced ([] : List (Rule Unit)) ("checked_out") [] [exCmdCo]
      (by decide)).1 _ rfl).1 exCmdCo (List.mem_cons_self _ _) rfl⟩

lemma add_dist_lookup : ∀ (ds : List (String × Bool)) (name : String) (data : Bool),
    dist_lookup (add_distribution_checkout ds name data) name = some (data) := by
  intro ds name data
  induction ds with
  | nil => simp [add_distribution_checkout, dist_lookup]
  | cons kv rest ih =>
    rcases kv with ⟨k, v⟩
    by_cases h : (k == name) = true
    · simp [add_distribution_checkout, dist_lookup, h]
    · simp [add_distribution_checkout, dist_lookup, h, ih]

/-- A checkout label used to exercise the distribution request paths. -/
def exCo : Label := ⟨"checkout", none, "hello", none, "*", some (false), some (false)⟩

/-- The ruleset produced by the first distribution request for exCo. -/
def exCoRs : List (Rule DAction) :=
  [⟨⟨"checkout", none, "hello", none, "distributed", some (false), some (false)⟩,
    some (DAction.distributeCheckout [("d1", false)]),
    [⟨"checkout", none, "hello", none, "checked_out", some (false), some (false)⟩]⟩]

/-- A package label used to exercise the distribution request paths. -/
def exPkg : Label := ⟨"package", none, "app", some ("x86"), "*", some (false), some (false)⟩

/-- The ruleset produced by the first distribution request for exPkg. -/
def exPkgRs : List (Rule DAction) :=
  [⟨⟨"package", none, "app", some ("x86"), "distributed", some (false), some (false)⟩,
    some (DAction.distributePackage [("d1", (true, false, false))]),
    [⟨"package", none, "app", some ("x86"), "postinstalled", some (false), some (false)⟩]⟩]

/-- C8 (counterexample): re-requesting a distribution descriptor for a
label that already has a distribution rule does not upgrade the action in
place as the claim states — for both the checkout and the package
request, the first call succeeds and the second call for the same label
fails with an AttributeError. -/
theorem C8_counterexample_rerequest_errors :
    distribute_checkout [] ("d1") exCo false = Except.ok (exCoRs) ∧
    distribute_checkout exCoRs ("d2") exCo false = Except.error (DistErr.attributeError) ∧
    distribute_package [] ("d1") exPkg true false false = Except.ok (exPkgRs) ∧
    distribute_package exPkgRs ("d2") exPkg false true false =
      Except.error (DistErr.attributeError) :=
  ⟨rfl, rfl, rfl, rfl⟩

/-- C8 (amended): when a distribution rule for the label already exists,
the re-request does not create a second rule but raises AttributeError:
distribute_checkout calls add_distribution on the stored Rule object (the
Rule class has no such method) and distribute_package calls the nowhere
defined add_context_name.  DistributeAction.add_distribution itself, were
it reached, stores the new data under the distribution name, silently
overwriting — not OR-composing — any previous entry for that name. -/
theorem C8_amended_rerequest_fails :
    ∀ (rs : List (Rule DAction)) (name : String) (label : Label) (vcs binary source : Bool),
      (label.type = kindCheckout →
        target_label_exists rs (copy_with_tag label tagDistributed) = true →
        distribute_checkout rs name label vcs = Except.error (DistErr.attributeError)) ∧
      (label.type = kindPackage →
        target_label_exists rs (copy_with_tag label tagDistributed) = true →
        distribute_package rs name label binary source vcs =
          Except.error (DistErr.attributeError)) ∧
      (∀ ds data, dist_lookup (add_distribution_checkout ds name data) name = some (data)) := by
  intro rs name label vcs binary source
  refine ⟨?_, ?_, ?_⟩
  · intro hty hex
    simp [distribute_checkout, hty, hex]
  · intro hty hex
    simp [distribute_package, hty, hex]
  · intro ds data
    exact add_dist_lookup ds name data

theorem C8_witness :
    distribute_checkout exCoRs ("d2") exCo true = Except.error (DistErr.attributeError) ∧
    distribute_package exPkgRs ("d2") exPkg false true true =
      Except.error (DistErr.attributeError) :=
  ⟨(C8_amended_rerequest_fails exCoRs ("d2") exCo true false true).1 rfl (by decide),
   (C8_amended_rerequest_fails exPkgRs ("d2") exPkg true false true).2.1 rfl (by decide)⟩

/-- A list of labels with pairwise distinct as_tuple keys — the image of
a Python set of labels. -/
def NodupL (ls : List Label) : Prop :=
  List.Pairwise (fun a b => labelBEq a b = false) ls

/-- One dependency step of the solver: some rule matching a (as fetched
by needed_to_build via rules_for_target) has a dependency equal, as a
Python label, to b. -/
def Step (rs : List (Rule α)) (ut : Bool) (a b : Label) : Prop :=
  ∃ r ∈ rules_for_target rs a ut true, ∃ d ∈ r.deps, labelBEq d b = true

/-- The labels the solver can need: the seed targets and everything
reachable from them through dependency steps. -/
inductive Reach (rs : List (Rule α)) (ut : Bool) (seeds : List Label) : Label → Prop where
  | seed : ∀ l, l ∈ seeds → Reach rs ut seeds l
  | step : ∀ a b, Reach rs ut seeds a → Step rs ut a b → Reach rs ut seeds b

/-- The satisfaction record of a successful solver run: pairs each
satisfied target, in order, with the single rule the solver appended for
it.  The chosen rule is one of the rules matching that target, and the
dependencies of every rule matching the target — not just the chosen one
— lie among the previously satisfied targets (acc plus the earlier list). -/
inductive Aligned (rs : List (Rule α)) (ut : Bool) : List Label → List Label → List (Rule α) → Prop where
  | nil : ∀ acc, Aligned rs ut acc [] []
  | cons : ∀ acc t ts r rl,
      (label_match t r.target).isSome = true →
      r ∈ rules_for_target rs t ut true →
      (∀ r2 ∈ rules_for_target rs t ut true, ∀ d ∈ r2.deps, memL d acc = true) →
      Aligned rs ut (acc ++ [t]) ts rl →
      Aligned rs ut acc (t :: ts) (r :: rl)

/-- Every dependency of every rule in the list matches (in the wildcard
sense) the target of some rule occurring earlier, the accumulator seeding
the targets already available. -/
def depsMatchFrom (acc : List Label) : List (Rule α) → Prop
  | [] => True
  | r :: rest => (∀ d ∈ r.deps, ∃ t ∈ acc, (label_match d t).isSome = true) ∧
      depsMatchFrom (acc ++ [r.target]) rest

/-- The literal reading of claim C1: every dependency of every rule in
the list is equal, as a Python label, to the target of some earlier rule. -/
def depsExactFrom (acc : List Label) : List (Rule α) → Bool
  | [] => true
  | r :: rest => r.deps.all (fun d => acc.any (fun t => labelBEq d t)) &&
      depsExactFrom (acc ++ [r.target]) rest

/-- The termination measure of the solver loop: universe labels not yet
satisfied plus universe labels not yet seen as targets. -/
def solveMeasure (rs : List (Rule α)) (seeds targets rts : List Label) : Nat :=
  ((solveUniverse rs seeds).filter (fun u => !memL u rts)).length +
    ((solveUniverse rs seeds).filter (fun u => !(memL u targets || memL u rts))).length

lemma labelBEq_comm (a b : Label) : labelBEq a b = labelBEq b a := by
  unfold labelBEq
  by_cases h : as_tuple a = as_tuple b
  · rw [h]
  · have h2 : as_tuple b ≠ as_tuple a := fun e => h e.symm
    simp [h, h2]

lemma memL_nil (x : Label) : memL x [] = false := rfl

lemma memL_cons (x y : Label) (ls : List Label) :
    memL x (y :: ls) = (labelBEq x y || memL x ls) := by
  simp [memL]

lemma memL_append (x : Label) (l1 l2 : List Label) :
    memL x (l1 ++ l2) = (memL x l1 || memL x l2) := by
  simp [memL, List.any_append]

lemma mem_imp_memL {x : Label} {ls : List Label} (h : x ∈ ls) : memL x ls = true := by
  unfold memL
  rw [List.any_eq_true]
  exact ⟨x, h, labelBEq_refl x⟩

lemma memL_exists {x : Label} {ls : List Label} (h : memL x ls = true) :
    ∃ y ∈ ls, labelBEq x y = true := by
  unfold memL at h
  rw [List.any_eq_true] at h
  exact h

lemma memL_false_all {x : Label} {ls : List Label} (h : memL x ls = false) :
    ∀ y ∈ ls, labelBEq x y = false := by
  intro y hy
  unfold memL at h
  rw [List.any_eq_false] at h
  exact Bool.of_not_eq_true (h y hy)

lemma memL_ne_nil {x : Label} {ls : List Label} (h : memL x ls = true) : ls ≠ [] := by
  intro e
  rw [e] at h
  cases h

lemma memL_addL_eq (x y : Label) (ls : List Label) :
    memL x (addL y ls) = (memL x ls || labelBEq x y) := by
  unfold addL
  split_ifs with hy
  · rcases hxy : labelBEq x y with _ | _
    · simp
    · rw [memL_congr hxy, hy]
      simp
  · rw [memL_append]
    simp [memL_cons, memL_nil]

lemma NodupL_append_single {ls : List Label} (y : Label) (h : NodupL ls)
    (hy : memL y ls = false) : NodupL (ls ++ [y]) := by
  unfold NodupL
  rw [List.pairwise_append]
  refine ⟨h, ?_, ?_⟩
  · exact List.pairwise_singleton _ _
  · intro a ha b hb
    simp only [List.mem_singleton] at hb
    subst hb
    rw [labelBEq_comm]
    exact memL_false_all hy a ha

lemma NodupL_addL {ls : List Label} (y : Label) (h : NodupL ls) : NodupL (addL y ls) := by
  unfold addL
  split_ifs with hy
  · exact h
  · exact NodupL_append_single y h (Bool.of_not_eq_true hy)

lemma memL_dedupAux (x : Label) : ∀ (ls seen : List Label),
    memL x (dedupAux seen ls) = true → memL x ls = true := by
  intro ls
  induction ls with
  | nil => intro seen h; cases h
  | cons l rest ih =>
    intro seen h
    unfold dedupAux at h
    split_ifs at h with hl
    · rw [memL_cons]
      rw [ih seen h]
      simp
    · rw [memL_cons] at h ⊢
      rcases Bool.or_eq_true_iff.mp h with h2 | h2
      · rw [h2]; simp
      · rw [ih _ h2]; simp

lemma memL_dedupAux_rev (x : Label) : ∀ (ls seen : List Label),
    memL x ls = true → memL x seen = false → memL x (dedupAux seen ls) = true := by
  intro ls
  induction ls with
  | nil => intro seen h; cases h
  | cons l rest ih =>
    intro seen h hseen
    unfold dedupAux
    rw [memL_cons] at h
    split_ifs with hl
    · rcases Bool.or_eq_true_iff.mp h with h2 | h2
      · rw [memL_congr h2] at hseen
        rw [hseen] at hl
        cases hl
      · exact ih seen h2 hseen
    · rw [memL_cons]
      rcases Bool.or_eq_true_iff.mp h with h2 | h2
      · rw [h2]; simp
      · by_cases h3 : labelBEq x l = true
        · rw [h3]; simp
        · rw [ih (seen ++ [l]) h2 ?_]
          · simp
          · rw [memL_append]
            rw [hseen]
            simp [memL_cons, memL_nil]
            exact Bool.of_not_eq_true h3

lemma memL_dedupL (x : Label) (ls : List Label) :
    memL x (dedupL ls) = memL x ls := by
  unfold dedupL
  by_cases h : memL x ls = true
  · rw [h, memL_dedupAux_rev x ls [] h rfl]
  · rw [Bool.of_not_eq_true h]
    by_cases h2 : memL x (dedupAux [] ls) = true
    · exact absurd (memL_dedupAux x ls [] h2) h
    · rw [Bool.of_not_eq_true h2]

lemma dedupAux_nodup : ∀ (ls seen : List Label),
    (∀ x ∈ dedupAux seen ls, memL x seen = false) ∧ NodupL (dedupAux seen ls) := by
  intro ls
  induction ls with
  | nil => intro seen; exact ⟨(by intro x hx; cases hx), List.Pairwise.nil⟩
  | cons l rest ih =>
    intro seen
    unfold dedupAux
    split_ifs with hl
    · exact ih seen
    · constructor
      · intro x hx
        rcases List.mem_cons.mp hx with rfl | hx2
        · exact Bool.of_not_eq_true hl
        · have := (ih (seen ++ [l])).1 x hx2
          rw [memL_append] at this
          exact (Bool.or_eq_false_iff.mp this).1
      · unfold NodupL
        rw [List.pairwise_cons]
        constructor
        · intro b hb
          have := (ih (seen ++ [l])).1 b hb
          rw [memL_append] at this
          have h2 := (Bool.or_eq_false_iff.mp this).2
          rw [memL_cons, memL_nil] at h2
          rw [labelBEq_comm]
          exact (Bool.or_eq_false_iff.mp h2).1
        · exact (ih (seen ++ [l])).2

lemma dedupL_nodup (ls : List Label) : NodupL (dedupL ls) :=
  (dedupAux_nodup ls []).2

lemma NodupL_filter (p : Label → Bool) {ls : List Label} (h : NodupL ls) :
    NodupL (ls.filter p) :=
  List.Pairwise.sublist (List.filter_sublist ls) h

lemma memL_filter_split (x : Label) (targets rts : List Label) (h : memL x targets = true) :
    memL x (targets.filter (fun t => !memL t rts)) = true ∨ memL x rts = true := by
  obtain ⟨y, hy, hxy⟩ := memL_exists h
  by_cases h2 : memL y rts = true
  · right
    rw [memL_congr hxy]
    exact h2
  · left
    rw [memL_congr hxy]
    apply mem_imp_memL
    rw [List.mem_filter]
    exact ⟨hy, by rw [Bool.of_not_eq_true h2]; rfl⟩

lemma mem_filter_memL {x : Label} {targets rts : List Label}
    (h : x ∈ targets.filter (fun t => !memL t rts)) :
    x ∈ targets ∧ memL x rts = false := by
  rw [List.mem_filter] at h
  refine ⟨h.1, ?_⟩
  have := h.2
  rw [Bool.not_eq_true']  at this
  exact this

lemma label_match_congr {a a' : Label} (h : as_tuple a = as_tuple a') (b : Label) :
    label_match a b = label_match a' b := by
  unfold as_tuple at h
  have h1 : a.type = a'.type := congrArg Prod.fst h
  have h2 : a.domain = a'.domain := congrArg (fun p => p.2.1) h
  have h3 : a.name = a'.name := congrArg (fun p => p.2.2.1) h
  have h4 : a.role = a'.role := congrArg (fun p => p.2.2.2.1) h
  have h5 : a.tag = a'.tag := congrArg (fun p => p.2.2.2.2) h
  unfold label_match
  rw [h1, h2, h3, h4, h5]

lemma filter_length_le (U : List Label) (p q : Label → Bool)
    (hpq : ∀ u ∈ U, q u = true → p u = true) :
    (U.filter q).length ≤ (U.filter p).length := by
  induction U with
  | nil => exact Nat.le_refl 0
  | cons u rest ih =>
    have ih2 := ih (fun v hv => hpq v (List.mem_cons_of_mem u hv))
    by_cases hq : q u = true
    · rw [List.filter_cons_of_pos hq, List.filter_cons_of_pos (hpq u (List.mem_cons_self u rest) hq)]
      simpa using ih2
    · rw [List.filter_cons_of_neg (by simpa using hq)]
      by_cases hp : p u = true
      · rw [List.filter_cons_of_pos hp]
        exact Nat.le_succ_of_le ih2
      · rw [List.filter_cons_of_neg (by simpa using hp)]
        exact ih2

lemma filter_length_lt (U : List Label) (p q : Label → Bool)
    (hpq : ∀ u ∈ U, q u = true → p u = true)
    (w : Label) (hw : w ∈ U) (hpw : p w = true) (hqw : q w = false) :
    (U.filter q).length < (U.filter p).length := by
  induction U with
  | nil => cases hw
  | cons u rest ih =>
    rcases List.mem_cons.mp hw with rfl | hw2
    · rw [List.filter_cons_of_pos hpw, List.filter_cons_of_neg (by simp [hqw])]
      exact Nat.lt_succ_of_le (filter_length_le rest p q
        (fun v hv => hpq v (List.mem_cons_of_mem w hv)))
    · have ih2 := ih (fun v hv => hpq v (List.mem_cons_of_mem u hv)) hw2
      by_cases hq : q u = true
      · rw [List.filter_cons_of_pos hq, List.filter_cons_of_pos (hpq u (List.mem_cons_self u rest) hq)]
        simpa using ih2
      · rw [List.filter_cons_of_neg (by simpa using hq)]
        by_cases hp : p u = true
        · rw [List.filter_cons_of_pos hp]
          exact Nat.lt_succ_of_lt ih2
        · rw [List.filter_cons_of_neg (by simpa using hp)]
          exact ih2

lemma scanDeps_nt_mono {tA rts : List Label} :
    ∀ {deps nt : List Label} {done cb : Bool} {nt' : List Label} {done' cb' : Bool},
      scanDeps tA rts deps nt done cb = (nt', done', cb') →
      ∀ x, memL x nt = true → memL x nt' = true := by
  intro deps
  induction deps with
  | nil =>
    intro nt done cb nt' done' cb' h x hx
    unfold scanDeps at h
    injection h with h1 h2
    rw [← h1]
    exact hx
  | cons d ds ih =>
    intro nt done cb nt' done' cb' h x hx
    unfold scanDeps at h
    split_ifs at h with h1 h2
    · exact ih h x hx
    · refine ih h x ?_
      rw [memL_append, hx]
      rfl
    · exact ih h x hx

lemma scanDeps_nt_elems {tA rts : List Label} :
    ∀ {deps nt : List Label} {done cb : Bool} {nt' : List Label} {done' cb' : Bool},
      scanDeps tA rts deps nt done cb = (nt', done', cb') →
      ∀ x ∈ nt', x ∈ nt ∨ x ∈ deps := by
  intro deps
  induction deps with
  | nil =>
    intro nt done cb nt' done' cb' h x hx
    unfold scanDeps at h
    injection h with h1 h2
    rw [← h1] at hx
    exact Or.inl hx
  | cons d ds ih =>
    intro nt done cb nt' done' cb' h x hx
    unfold scanDeps at h
    split_ifs at h with h1 h2
    · rcases ih h x hx with h3 | h3
      · exact Or.inl h3
      · exact Or.inr (List.mem_cons_of_mem d h3)
    · rcases ih h x hx with h3 | h3
      · rcases List.mem_append.mp h3 with h4 | h4
        · exact Or.inl h4
        · simp only [List.mem_singleton] at h4
          subst h4
          exact Or.inr (List.mem_cons_self _ _)
      · exact Or.inr (List.mem_cons_of_mem d h3)
    · rcases ih h x hx with h3 | h3
      · exact Or.inl h3
      · exact Or.inr (List.mem_cons_of_mem d h3)

lemma scanDeps_done_mono {tA rts : List Label} :
    ∀ {deps nt : List Label} {done cb : Bool} {nt' : List Label} {done' cb' : Bool},
      scanDeps tA rts deps nt done cb = (nt', done', cb') →
      done = true → done' = true := by
  intro deps
  induction deps with
  | nil =>
    intro nt done cb nt' done' cb' h hd
    unfold scanDeps at h
    injection h with h1 h2
    injection h2 with h2 h3
    rw [← h2]
    exact hd
  | cons d ds ih =>
    intro nt done cb nt' done' cb' h hd
    unfold scanDeps at h
    split_ifs at h with h1 h2
    · exact ih h hd
    · exact ih h rfl
    · exact ih h hd

lemma scanDeps_cb_mono {tA rts : List Label} :
    ∀ {deps nt : List Label} {done cb : Bool} {nt' : List Label} {done' cb' : Bool},
      scanDeps tA rts deps nt done cb = (nt', done', cb') →
      cb = false → cb' = false := by
  intro deps
  induction deps with
  | nil =>
    intro nt done cb nt' done' cb' h hc
    unfold scanDeps at h
    injection h with h1 h2
    injection h2 with h2 h3
    rw [← h3]
    exact hc
  | cons d ds ih =>
    intro nt done cb nt' done' cb' h hc
    unfold scanDeps at h
    split_ifs at h with h1 h2
    · exact ih h hc
    · exact ih h rfl
    · exact ih h rfl

lemma scanDeps_nodup {tA rts : List Label} :
    ∀ {deps nt : List Label} {done cb : Bool} {nt' : List Label} {done' cb' : Bool},
      scanDeps tA rts deps nt done cb = (nt', done', cb') →
      NodupL nt → NodupL nt' := by
  intro deps
  induction deps with
  | nil =>
    intro nt done cb nt' done' cb' h hn
    unfold scanDeps at h
    injection h with h1 h2
    rw [← h1]
    exact hn
  | cons d ds ih =>
    intro nt done cb nt' done' cb' h hn
    unfold scanDeps at h
    split_ifs at h with h1 h2
    · exact ih h hn
    · rw [Bool.and_eq_true] at h2
      refine ih h (NodupL_append_single d hn ?_)
      have := h2.1
      rw [Bool.not_eq_true'] at this
      exact this
    · exact ih h hn

lemma scanDeps_cb_true {tA rts : List Label} :
    ∀ {deps nt : List Label} {done cb : Bool} {nt' : List Label} {done' : Bool},
      scanDeps tA rts deps nt done cb = (nt', done', true) →
      cb = true ∧ ∀ d ∈ deps, memL d rts = true := by
  intro deps
  induction deps with
  | nil =>
    intro nt done cb nt' done' h
    unfold scanDeps at h
    injection h with h1 h2
    injection h2 with h2 h3
    exact ⟨h3, by intro d hd; cases hd⟩
  | cons d ds ih =>
    intro nt done cb nt' done' h
    unfold scanDeps at h
    split_ifs at h with h1 h2
    · obtain ⟨hcb, hall⟩ := ih h
      refine ⟨hcb, ?_⟩
      intro e he
      rcases List.mem_cons.mp he with rfl | he2
      · exact h1
      · exact hall e he2
    · obtain ⟨hcb, hall⟩ := ih h
      cases hcb
    · obtain ⟨hcb, hall⟩ := ih h
      cases hcb

lemma scanDeps_progress {tA rts : List Label} :
    ∀ {deps nt : List Label} {cb : Bool} {nt' : List Label} {cb' : Bool},
      scanDeps tA rts deps nt false cb = (nt', true, cb') →
      ∃ d ∈ deps, memL d rts = false ∧ memL d tA = false ∧ memL d nt' = true := by
  intro deps
  induction deps with
  | nil =>
    intro nt cb nt' cb' h
    unfold scanDeps at h
    injection h with h1 h2
    injection h2 with h2 h3
    cases h2
  | cons d ds ih =>
    intro nt cb nt' cb' h
    unfold scanDeps at h
    split_ifs at h with h1 h2
    · obtain ⟨e, he, hp⟩ := ih h
      exact ⟨e, List.mem_cons_of_mem d he, hp⟩
    · rw [Bool.and_eq_true, Bool.not_eq_true', Bool.not_eq_true'] at h2
      refine ⟨d, List.mem_cons_self _ _, ?_, h2.2, ?_⟩
      · exact Bool.of_not_eq_true h1
      · refine scanDeps_nt_mono h d ?_
        rw [memL_append]
        simp [memL_cons, memL_nil, labelBEq_refl]
    · obtain ⟨e, he, hp⟩ := ih h
      exact ⟨e, List.mem_cons_of_mem d he, hp⟩

lemma scanDeps_no_add {tA rts : List Label} :
    ∀ {deps nt : List Label} {cb : Bool} {nt' : List Label} {cb' : Bool},
      scanDeps tA rts deps nt false cb = (nt', false, cb') →
      nt' = nt := by
  intro deps
  induction deps with
  | nil =>
    intro nt cb nt' cb' h
    unfold scanDeps at h
    injection h with h1 h2
    exact h1.symm
  | cons d ds ih =>
    intro nt cb nt' cb' h
    unfold scanDeps at h
    split_ifs at h with h1 h2
    · exact ih h
    · have := scanDeps_done_mono h rfl
      cases this
    · exact ih h

lemma scanDeps_stuck {tA rts : List Label} :
    ∀ {deps nt : List Label} {nt' : List Label},
      scanDeps tA rts deps nt false true = (nt', false, false) →
      ∃ d ∈ deps, memL d rts = false ∧ (memL d nt = true ∨ memL d tA = true) := by
  intro deps
  induction deps with
  | nil =>
    intro nt nt' h
    unfold scanDeps at h
    injection h with h1 h2
    injection h2 with h2 h3
    cases h3
  | cons d ds ih =>
    intro nt nt' h
    unfold scanDeps at h
    split_ifs at h with h1 h2
    · obtain ⟨e, he, hp⟩ := ih h
      exact ⟨e, List.mem_cons_of_mem d he, hp⟩
    · have := scanDeps_done_mono h rfl
      cases this
    · refine ⟨d, List.mem_cons_self _ _, ?_, ?_⟩
      · exact Bool.of_not_eq_true h1
      · rw [Bool.and_eq_true] at h2
        rcases hnt : memL d nt with _ | _
        · right
          rcases htA : memL d tA with _ | _
          · exfalso
            apply h2
            constructor
            · rw [Bool.not_eq_true', hnt]
            · rw [Bool.not_eq_true', htA]
          · rfl
        · left
          rfl

lemma scanRules_unfold_cons {α : Type} (tA rts : List Label) (r : Rule α) (rest : List (Rule α))
    (nt : List Label) (done cb : Bool) :
    scanRules tA rts (r :: rest) nt done cb =
      scanRules tA rts rest (scanDeps tA rts r.deps nt done cb).1
        (scanDeps tA rts r.deps nt done cb).2.1 (scanDeps tA rts r.deps nt done cb).2.2 := by
  simp only [scanRules]

lemma scanRules_nt_mono {α : Type} {tA rts : List Label} :
    ∀ {rules : List (Rule α)} {nt : List Label} {done cb : Bool} {nt' : List Label}
      {done' cb' : Bool},
      scanRules tA rts rules nt done cb = (nt', done', cb') →
      ∀ x, memL x nt = true → memL x nt' = true := by
  intro rules
  induction rules with
  | nil =>
    intro nt done cb nt' done' cb' h x hx
    injection h with h1 h2
    rw [← h1]
    exact hx
  | cons r rest ih =>
    intro nt done cb nt' done' cb' h x hx
    rw [scanRules_unfold_cons] at h
    rcases hs : scanDeps tA rts r.deps nt done cb with ⟨nt2, done2, cb2⟩
    rw [hs] at h
    exact ih h x (scanDeps_nt_mono hs x hx)

lemma scanRules_nt_elems {α : Type} {tA rts : List Label} :
    ∀ {rules : List (Rule α)} {nt : List Label} {done cb : Bool} {nt' : List Label}
      {done' cb' : Bool},
      scanRules tA rts rules nt done cb = (nt', done', cb') →
      ∀ x ∈ nt', x ∈ nt ∨ ∃ r ∈ rules, x ∈ r.deps := by
  intro rules
  induction rules with
  | nil =>
    intro nt done cb nt' done' cb' h x hx
    injection h with h1 h2
    rw [← h1] at hx
    exact Or.inl hx
  | cons r rest ih =>
    intro nt done cb nt' done' cb' h x hx
    rw [scanRules_unfold_cons] at h
    rcases hs : scanDeps tA rts r.deps nt done cb with ⟨nt2, done2, cb2⟩
    rw [hs] at h
    rcases ih h x hx with h2 | ⟨r2, hr2, hd2⟩
    · rcases scanDeps_nt_elems hs x h2 with h3 | h3
      · exact Or.inl h3
      · exact Or.inr ⟨r, List.mem_cons_self r rest, h3⟩
    · exact Or.inr ⟨r2, List.mem_cons_of_mem r hr2, hd2⟩

lemma scanRules_done_mono {α : Type} {tA rts : List Label} :
    ∀ {rules : List (Rule α)} {nt : List Label} {done cb : Bool} {nt' : List Label}
      {done' cb' : Bool},
      scanRules tA rts rules nt done cb = (nt', done', cb') →
      done = true → done' = true := by
  intro rules
  induction rules with
  | nil =>
    intro nt done cb nt' done' cb' h hd
    injection h with h1 h2
    injection h2 with h2 h3
    rw [← h2]
    exact hd
  | cons r rest ih =>
    intro nt done cb nt' done' cb' h hd
    rw [scanRules_unfold_cons] at h
    rcases hs : scanDeps tA rts r.deps nt done cb with ⟨nt2, done2, cb2⟩
    rw [hs] at h
    exact ih h (scanDeps_done_mono hs hd)

lemma scanRules_nodup {α : Type} {tA rts : List Label} :
    ∀ {rules : List (Rule α)} {nt : List Label} {done cb : Bool} {nt' : List Label}
      {done' cb' : Bool},
      scanRules tA rts rules nt done cb = (nt', done', cb') →
      NodupL nt → NodupL nt' := by
  intro rules
  induction rules with
  | nil =>
    intro nt done cb nt' done' cb' h hn
    injection h with h1 h2
    rw [← h1]
    exact hn
  | cons r rest ih =>
    intro nt done cb nt' done' cb' h hn
    rw [scanRules_unfold_cons] at h
    rcases hs : scanDeps tA rts r.deps nt done cb with ⟨nt2, done2, cb2⟩
    rw [hs] at h
    exact ih h (scanDeps_nodup hs hn)

lemma scanRules_cb_true {α : Type} {tA rts : List Label} :
    ∀ {rules : List (Rule α)} {nt : List Label} {done cb : Bool} {nt' : List Label}
      {done' : Bool},
      scanRules tA rts rules nt done cb = (nt', done', true) →
      cb = true ∧ ∀ r ∈ rules, ∀ d ∈ r.deps, memL d rts = true := by
  intro rules
  induction rules with
  | nil =>
    intro nt done cb nt' done' h
    injection h with h1 h2
    injection h2 with h2 h3
    exact ⟨h3, by intro r hr; cases hr⟩
  | cons r rest ih =>
    intro nt done cb nt' done' h
    rw [scanRules_unfold_cons] at h
    rcases hs : scanDeps tA rts r.deps nt done cb with ⟨nt2, done2, cb2⟩
    rw [hs] at h
    obtain ⟨hcb2, hall⟩ := ih h
    have hcb2b : cb2 = true := hcb2
    rw [hcb2b] at hs
    obtain ⟨hcb, hdeps⟩ := scanDeps_cb_true hs
    refine ⟨hcb, ?_⟩
    intro r2 hr2 d hd
    rcases List.mem_cons.mp hr2 with rfl | hr3
    · exact hdeps d hd
    · exact hall r2 hr3 d hd

lemma scanRules_progress {α : Type} {tA rts : List Label} :
    ∀ {rules : List (Rule α)} {nt : List Label} {cb : Bool} {nt' : List Label} {cb' : Bool},
      scanRules tA rts rules nt false cb = (nt', true, cb') →
      ∃ r ∈ rules, ∃ d ∈ r.deps,
        memL d rts = false ∧ memL d tA = false ∧ memL d nt' = true := by
  intro rules
  induction rules with
  | nil =>
    intro nt cb nt' cb' h
    injection h with h1 h2
    injection h2 with h2 h3
    cases h2
  | cons r rest ih =>
    intro nt cb nt' cb' h
    rw [scanRules_unfold_cons] at h
    rcases hs : scanDeps tA rts r.deps nt false cb with ⟨nt2, done2, cb2⟩
    rw [hs] at h
    rcases hd2 : done2 with _ | _
    · rw [hd2] at h
      obtain ⟨r2, hr2, hp⟩ := ih h
      exact ⟨r2, List.mem_cons_of_mem r hr2, hp⟩
    · rw [hd2] at hs
      obtain ⟨d, hd, hp1, hp2, hp3⟩ := scanDeps_progress hs
      exact ⟨r, List.mem_cons_self r rest, d, hd, hp1, hp2,
        scanRules_nt_mono h d hp3⟩

lemma scanRules_no_add {α : Type} {tA rts : List Label} :
    ∀ {rules : List (Rule α)} {nt : List Label} {cb : Bool} {nt' : List Label} {cb' : Bool},
      scanRules tA rts rules nt false cb = (nt', false, cb') →
      nt' = nt := by
  intro rules
  induction rules with
  | nil =>
    intro nt cb nt' cb' h
    injection h with h1 h2
    exact h1.symm
  | cons r rest ih =>
    intro nt cb nt' cb' h
    rw [scanRules_unfold_cons] at h
    rcases hs : scanDeps tA rts r.deps nt false cb with ⟨nt2, done2, cb2⟩
    rw [hs] at h
    rcases hd2 : done2 with _ | _
    · rw [hd2] at h hs
      rw [ih h]
      exact scanDeps_no_add hs
    · rw [hd2] at h
      have := scanRules_done_mono h rfl
      cases this

lemma scanRules_stuck {α : Type} {tA rts : List Label} :
    ∀ {rules : List (Rule α)} {nt : List Label} {nt' : List Label},
      scanRules tA rts rules nt false true = (nt', false, false) →
      ∃ r ∈ rules, ∃ d ∈ r.deps,
        memL d rts = false ∧ (memL d nt = true ∨ memL d tA = true) := by
  intro rules
  induction rules with
  | nil =>
    intro nt nt' h
    injection h with h1 h2
    injection h2 with h2 h3
    cases h3
  | cons r rest ih =>
    intro nt nt' h
    rw [scanRules_unfold_cons] at h
    rcases hs : scanDeps tA rts r.deps nt false true with ⟨nt2, done2, cb2⟩
    rw [hs] at h
    rcases hd2 : done2 with _ | _
    · rw [hd2] at h hs
      have hnt2 : nt2 = nt := scanDeps_no_add hs
      rcases hc2 : cb2 with _ | _
      · rw [hc2] at hs
        obtain ⟨d, hd, hp1, hp2⟩ := scanDeps_stuck hs
        exact ⟨r, List.mem_cons_self r rest, d, hd, hp1, hp2⟩
      · rw [hc2] at h
        obtain ⟨r2, hr2, d, hd, hp1, hp2⟩ := ih h
        rw [hnt2] at hp2
        exact ⟨r2, List.mem_cons_of_mem r hr2, d, hd, hp1, hp2⟩
    · rw [hd2] at h
      have := scanRules_done_mono h rfl
      cases this

lemma addL_not_mem {y : Label} {ls : List Label} (h : memL y ls = false) :
    addL y ls = ls ++ [y] := by
  unfold addL
  rw [h]
  rfl

lemma rules_for_target_useMatch {α : Type} {rs : List (Rule α)} {l : Label} {ut : Bool}
    {r : Rule α} (h : r ∈ rules_for_target rs l ut true) :
    r ∈ rs ∧ (label_match l r.target).isSome = true := by
  unfold rules_for_target at h
  rw [if_pos rfl] at h
  rw [List.mem_filter] at h
  exact h

lemma Aligned_snoc {α : Type} {rs : List (Rule α)} {ut : Bool} :
    ∀ {acc ts rl}, Aligned rs ut acc ts rl →
      ∀ {t : Label} {r : Rule α}, (label_match t r.target).isSome = true →
        r ∈ rules_for_target rs t ut true →
        (∀ r2 ∈ rules_for_target rs t ut true, ∀ d ∈ r2.deps, memL d (acc ++ ts) = true) →
        Aligned rs ut acc (ts ++ [t]) (rl ++ [r]) := by
  intro acc ts rl h
  induction h with
  | nil acc =>
    intro t r h1 h2 h3
    refine Aligned.cons acc t [] r [] h1 h2 ?_ (Aligned.nil _)
    intro r2 hr2 d hd
    have h4 := h3 r2 hr2 d hd
    rwa [List.append_nil] at h4
  | cons acc t0 ts0 r0 rl0 hm hr hready _ ih =>
    intro t r h1 h2 h3
    refine Aligned.cons acc t0 (ts0 ++ [t]) r0 (rl0 ++ [r]) hm hr hready ?_
    refine ih h1 h2 ?_
    intro r2 hr2 d hd
    have h4 := h3 r2 hr2 d hd
    rwa [List.append_cons] at h4

lemma Aligned_length {α : Type} {rs : List (Rule α)} {ut : Bool} :
    ∀ {acc ts rl}, Aligned rs ut acc ts rl → ts.length = rl.length := by
  intro acc ts rl h
  induction h with
  | nil acc => rfl
  | cons acc t0 ts0 r0 rl0 _ _ _ _ ih => simpa using ih

lemma processPass_unfold_cons_none {α : Type} {rs : List (Rule α)} {ut : Bool}
    {tA : List Label} {tgt : Label} {pending nt : List Label} {rl : List (Rule α)}
    {rts : List Label} {done : Bool} (h : rules_for_target rs tgt ut true = []) :
    processPass rs ut tA (tgt :: pending) nt rl rts done =
      Except.error (SolveErr.emptyRules tgt) := by
  simp only [processPass, h]

lemma processPass_unfold_cons {α : Type} {rs : List (Rule α)} {ut : Bool}
    {tA : List Label} {tgt : Label} {pending nt : List Label} {rl : List (Rule α)}
    {rts : List Label} {done : Bool} {r0 : Rule α} {rrest : List (Rule α)}
    {nt2 : List Label} {done2 cb : Bool}
    (h : rules_for_target rs tgt ut true = r0 :: rrest)
    (hs : scanRules tA rts (r0 :: rrest) nt done true = (nt2, done2, cb)) :
    processPass rs ut tA (tgt :: pending) nt rl rts done =
      (if cb then
        processPass rs ut tA pending nt2
          (rl ++ [(r0 :: rrest).getLast (List.cons_ne_nil r0 rrest)]) (addL tgt rts) true
      else
        processPass rs ut tA pending (addL tgt nt2) rl rts done2) := by
  simp only [processPass, h, hs]

lemma processPass_basic {α : Type} {rs : List (Rule α)} {ut : Bool} {tA : List Label} :
    ∀ {pending nt : List Label} {rl : List (Rule α)} {rts : List Label} {done : Bool}
      {nt' : List Label} {rl' : List (Rule α)} {rts' : List Label} {done' : Bool},
      processPass rs ut tA pending nt rl rts done = Except.ok ((nt', rl', rts', done')) →
      (∀ x, memL x nt = true → memL x nt' = true) ∧
      (∀ x, memL x rts = true → memL x rts' = true) ∧
      (∀ t ∈ pending, memL t nt' = true ∨ memL t rts' = true) ∧
      (done = true → done' = true) := by
  intro pending
  induction pending with
  | nil =>
    intro nt rl rts done nt' rl' rts' done' h
    injection h with h0
    injection h0 with h1 h0
    injection h0 with h2 h0
    injection h0 with h3 h4
    subst h1 h2 h3 h4
    exact ⟨fun x hx => hx, fun x hx => hx, (by intro t ht; cases ht), fun hd => hd⟩
  | cons tgt pending ih =>
    intro nt rl rts done nt' rl' rts' done' h
    rcases hrules : rules_for_target rs tgt ut true with _ | ⟨r0, rrest⟩
    · rw [processPass_unfold_cons_none hrules] at h
      exact Except.noConfusion h
    · rcases hscan : scanRules tA rts (r0 :: rrest) nt done true with ⟨nt2, done2, cb⟩
      rw [processPass_unfold_cons hrules hscan] at h
      rcases cb with _ | _
      · rw [if_neg (by simp)] at h
        obtain ⟨m1, m2, m3, m4⟩ := ih h
        refine ⟨?_, m2, ?_, ?_⟩
        · intro x hx
          exact m1 x (memL_addL_mono _ (scanRules_nt_mono hscan x hx))
        · intro t ht
          rcases List.mem_cons.mp ht with rfl | ht2
          · exact Or.inl (m1 t (memL_addL_self t nt2))
          · exact m3 t ht2
        · intro hd
          exact m4 (scanRules_done_mono hscan hd)
      · rw [if_pos rfl] at h
        obtain ⟨m1, m2, m3, m4⟩ := ih h
        refine ⟨?_, ?_, ?_, ?_⟩
        · intro x hx
          exact m1 x (scanRules_nt_mono hscan x hx)
        · intro x hx
          exact m2 x (memL_addL_mono _ hx)
        · intro t ht
          rcases List.mem_cons.mp ht with rfl | ht2
          · exact Or.inr (m2 t (memL_addL_self t rts))
          · exact m3 t ht2
        · intro _
          exact m4 rfl

lemma processPass_nt_elems {α : Type} {rs : List (Rule α)} {ut : Bool} {tA : List Label} :
    ∀ {pending nt : List Label} {rl : List (Rule α)} {rts : List Label} {done : Bool}
      {nt' : List Label} {rl' : List (Rule α)} {rts' : List Label} {done' : Bool},
      processPass rs ut tA pending nt rl rts done = Except.ok ((nt', rl', rts', done')) →
      ∀ x ∈ nt', x ∈ nt ∨ x ∈ pending ∨
        ∃ t ∈ pending, ∃ r ∈ rules_for_target rs t ut true, x ∈ r.deps := by
  intro pending
  induction pending with
  | nil =>
    intro nt rl rts done nt' rl' rts' done' h x hx
    injection h with h0
    injection h0 with h1 h0
    subst h1
    exact Or.inl hx
  | cons tgt pending ih =>
    intro nt rl rts done nt' rl' rts' done' h x hx
    rcases hrules : rules_for_target rs tgt ut true with _ | ⟨r0, rrest⟩
    · rw [processPass_unfold_cons_none hrules] at h
      exact Except.noConfusion h
    · rcases hscan : scanRules tA rts (r0 :: rrest) nt done true with ⟨nt2, done2, cb⟩
      rw [processPass_unfold_cons hrules hscan] at h
      rcases cb with _ | _
      · rw [if_neg (by simp)] at h
        rcases ih h x hx with h2 | h2 | ⟨t, ht, hr⟩
        · rcases mem_addL h2 with rfl | h3
          · exact Or.inr (Or.inl (List.mem_cons_self _ _))
          · rcases scanRules_nt_elems hscan x h3 with h4 | ⟨r, hrr, hd⟩
            · exact Or.inl h4
            · refine Or.inr (Or.inr ⟨tgt, List.mem_cons_self _ _, r, ?_, hd⟩)
              rw [hrules]
              exact hrr
        · exact Or.inr (Or.inl (List.mem_cons_of_mem _ h2))
        · exact Or.inr (Or.inr ⟨t, List.mem_cons_of_mem _ ht, hr⟩)
      · rw [if_pos rfl] at h
        rcases ih h x hx with h2 | h2 | ⟨t, ht, hr⟩
        · rcases scanRules_nt_elems hscan x h2 with h4 | ⟨r, hrr, hd⟩
          · exact Or.inl h4
          · refine Or.inr (Or.inr ⟨tgt, List.mem_cons_self _ _, r, ?_, hd⟩)
            rw [hrules]
            exact hrr
        · exact Or.inr (Or.inl (List.mem_cons_of_mem _ h2))
        · exact Or.inr (Or.inr ⟨t, List.mem_cons_of_mem _ ht, hr⟩)

lemma processPass_err_shape {α : Type} {rs : List (Rule α)} {ut : Bool} {tA : List Label} :
    ∀ {pending nt : List Label} {rl : List (Rule α)} {rts : List Label} {done : Bool}
      {e : SolveErr α},
      processPass rs ut tA pending nt rl rts done = Except.error e →
      ∃ t ∈ pending, e = SolveErr.emptyRules t ∧ rules_for_target rs t ut true = [] := by
  intro pending
  induction pending with
  | nil =>
    intro nt rl rts done e h
    exact Except.noConfusion h
  | cons tgt pending ih =>
    intro nt rl rts done e h
    rcases hrules : rules_for_target rs tgt ut true with _ | ⟨r0, rrest⟩
    · rw [processPass_unfold_cons_none hrules] at h
      injection h with h0
      exact ⟨tgt, List.mem_cons_self _ _, h0.symm, hrules⟩
    · rcases hscan : scanRules tA rts (r0 :: rrest) nt done true with ⟨nt2, done2, cb⟩
      rw [processPass_unfold_cons hrules hscan] at h
      rcases cb with _ | _
      · rw [if_neg (by simp)] at h
        obtain ⟨t, ht, he⟩ := ih h
        exact ⟨t, List.mem_cons_of_mem _ ht, he⟩
      · rw [if_pos rfl] at h
        obtain ⟨t, ht, he⟩ := ih h
        exact ⟨t, List.mem_cons_of_mem _ ht, he⟩

lemma processPass_aligned {α : Type} {rs : List (Rule α)} {ut : Bool} {tA : List Label} :
    ∀ {pending nt : List Label} {rl : List (Rule α)} {rts : List Label} {done : Bool}
      {nt' : List Label} {rl' : List (Rule α)} {rts' : List Label} {done' : Bool},
      processPass rs ut tA pending nt rl rts done = Except.ok ((nt', rl', rts', done')) →
      Aligned rs ut [] rts rl → NodupL rts → NodupL pending →
      (∀ t ∈ pending, memL t rts = false) → NodupL nt →
      Aligned rs ut [] rts' rl' ∧ NodupL rts' ∧ NodupL nt' := by
  intro pending
  induction pending with
  | nil =>
    intro nt rl rts done nt' rl' rts' done' h ha hn hp hpre hnt
    injection h with h0
    injection h0 with h1 h0
    injection h0 with h2 h0
    injection h0 with h3 h4
    subst h1 h2 h3
    exact ⟨ha, hn, hnt⟩
  | cons tgt pending ih =>
    intro nt rl rts done nt' rl' rts' done' h ha hn hp hpre hnt
    rcases hrules : rules_for_target rs tgt ut true with _ | ⟨r0, rrest⟩
    · rw [processPass_unfold_cons_none hrules] at h
      exact Except.noConfusion h
    · rcases hscan : scanRules tA rts (r0 :: rrest) nt done true with ⟨nt2, done2, cb⟩
      rw [processPass_unfold_cons hrules hscan] at h
      have hppre : memL tgt rts = false := hpre tgt (List.mem_cons_self _ _)
      have hptail : ∀ t ∈ pending, memL t rts = false :=
        fun t ht => hpre t (List.mem_cons_of_mem _ ht)
      have hpnodup : NodupL pending := (List.pairwise_cons.mp hp).2
      have hphead : ∀ t ∈ pending, labelBEq tgt t = false := (List.pairwise_cons.mp hp).1
      rcases cb with _ | _
      · rw [if_neg (by simp)] at h
        exact ih h ha hn hpnodup hptail (NodupL_addL tgt (scanRules_nodup hscan hnt))
      · rw [if_pos rfl] at h
        have hdeps : ∀ r2 ∈ (r0 :: rrest), ∀ d ∈ r2.deps, memL d rts = true :=
          (scanRules_cb_true hscan).2
        have hlast : (r0 :: rrest).getLast (List.cons_ne_nil r0 rrest) ∈
            rules_for_target rs tgt ut true := by
          rw [hrules]
          exact List.getLast_mem _
        have halign2 : Aligned rs ut [] (rts ++ [tgt])
            (rl ++ [(r0 :: rrest).getLast (List.cons_ne_nil r0 rrest)]) := by
          refine Aligned_snoc ha ?_ hlast ?_
          · exact (rules_for_target_useMatch hlast).2
          · intro r2 hr2 d hd
            rw [List.nil_append]
            rw [hrules] at hr2
            exact hdeps r2 hr2 d hd
        rw [← addL_not_mem hppre] at halign2
        refine ih h halign2 (NodupL_addL tgt hn) hpnodup ?_ (scanRules_nodup hscan hnt)
        intro t ht
        rw [memL_addL_eq]
        rw [hptail t ht]
        rw [labelBEq_comm, hphead t ht]
        rfl

lemma processPass_progress {α : Type} {rs : List (Rule α)} {ut : Bool} {tA : List Label} :
    ∀ {pending nt : List Label} {rl : List (Rule α)} {rts : List Label}
      {nt' : List Label} {rl' : List (Rule α)} {rts' : List Label},
      processPass rs ut tA pending nt rl rts false = Except.ok ((nt', rl', rts', true)) →
      (∀ t ∈ pending, memL t rts = false) →
      (∃ t ∈ pending, memL t rts = false ∧ memL t rts' = true) ∨
      (∃ d, (∃ r ∈ rs, d ∈ r.deps) ∧ memL d rts = false ∧ memL d tA = false ∧
        memL d nt' = true) := by
  intro pending
  induction pending with
  | nil =>
    intro nt rl rts nt' rl' rts' h hpre
    injection h with h0
    injection h0 with h1 h0
    injection h0 with h2 h0
    injection h0 with h3 h4
    exact Bool.noConfusion h4
  | cons tgt pending ih =>
    intro nt rl rts nt' rl' rts' h hpre
    rcases hrules : rules_for_target rs tgt ut true with _ | ⟨r0, rrest⟩
    · rw [processPass_unfold_cons_none hrules] at h
      exact Except.noConfusion h
    · rcases hscan : scanRules tA rts (r0 :: rrest) nt false true with ⟨nt2, done2, cb⟩
      rw [processPass_unfold_cons hrules hscan] at h
      rcases cb with _ | _
      · rw [if_neg (by simp)] at h
        rcases hd2 : done2 with _ | _
        · rw [hd2] at h
          rcases ih h (fun t ht => hpre t (List.mem_cons_of_mem _ ht)) with
            ⟨t, ht, hprop⟩ | hright
          · exact Or.inl ⟨t, List.mem_cons_of_mem _ ht, hprop⟩
          · exact Or.inr hright
        · rw [hd2] at hscan
          obtain ⟨r, hr, d, hd, hp1, hp2, hp3⟩ := scanRules_progress hscan
          have hrmem : r ∈ rules_for_target rs tgt ut true := by
            rw [hrules]; exact hr
          refine Or.inr ⟨d, ⟨r, (rules_for_target_useMatch hrmem).1, hd⟩, hp1, hp2, ?_⟩
          · exact (processPass_basic h).1 d (memL_addL_mono _ hp3)
      · rw [if_pos rfl] at h
        refine Or.inl ⟨tgt, List.mem_cons_self _ _, hpre tgt (List.mem_cons_self _ _), ?_⟩
        exact (processPass_basic h).2.1 tgt (memL_addL_self tgt rts)

lemma processPass_stuck {α : Type} {rs : List (Rule α)} {ut : Bool} {tA : List Label} :
    ∀ {pending nt : List Label} {rl : List (Rule α)} {rts : List Label}
      {nt' : List Label} {rl' : List (Rule α)} {rts' : List Label},
      processPass rs ut tA pending nt rl rts false = Except.ok ((nt', rl', rts', false)) →
      (∀ x, memL x nt = true → memL x tA = true) →
      (∀ t ∈ pending, memL t tA = true) →
      ∀ t ∈ pending, ∃ r ∈ rules_for_target rs t ut true, ∃ d ∈ r.deps,
        memL d rts = false ∧ memL d tA = true := by
  intro pending
  induction pending with
  | nil =>
    intro nt rl rts nt' rl' rts' h hnt hpend t ht
    cases ht
  | cons tgt pending ih =>
    intro nt rl rts nt' rl' rts' h hnt hpend t ht
    rcases hrules : rules_for_target rs tgt ut true with _ | ⟨r0, rrest⟩
    · rw [processPass_unfold_cons_none hrules] at h
      exact Except.noConfusion h
    · rcases hscan : scanRules tA rts (r0 :: rrest) nt false true with ⟨nt2, done2, cb⟩
      rw [processPass_unfold_cons hrules hscan] at h
      rcases cb with _ | _
      · rw [if_neg (by simp)] at h
        rcases hd2 : done2 with _ | _
        · rw [hd2] at h hscan
          have hnt2 : nt2 = nt := scanRules_no_add hscan
          have hnt2all : ∀ x, memL x (addL tgt nt2) = true → memL x tA = true := by
            intro x hx
            rw [memL_addL_eq] at hx
            rcases Bool.or_eq_true_iff.mp hx with h3 | h3
            · rw [hnt2] at h3
              exact hnt x h3
            · rw [memL_congr h3]
              exact hpend tgt (List.mem_cons_self _ _)
          rcases List.mem_cons.mp ht with rfl | ht2
          · obtain ⟨r, hr, d, hd, hp1, hp2⟩ := scanRules_stuck hscan
            refine ⟨r, ?_, d, hd, hp1, ?_⟩
            · rw [hrules]; exact hr
            · rcases hp2 with h3 | h3
              · exact hnt d h3
              · exact h3
          · exact ih h hnt2all (fun t2 ht3 => hpend t2 (List.mem_cons_of_mem _ ht3)) t ht2
        · rw [hd2] at h
          have := (processPass_basic h).2.2.2 rfl
          exact Bool.noConfusion this
      · rw [if_pos rfl] at h
        have := (processPass_basic h).2.2.2 rfl
        exact Bool.noConfusion this

lemma processPass_no_done_rts {α : Type} {rs : List (Rule α)} {ut : Bool} {tA : List Label} :
    ∀ {pending nt : List Label} {rl : List (Rule α)} {rts : List Label}
      {nt' : List Label} {rl' : List (Rule α)} {rts' : List Label},
      processPass rs ut tA pending nt rl rts false = Except.ok ((nt', rl', rts', false)) →
      rts' = rts := by
  intro pending
  induction pending with
  | nil =>
    intro nt rl rts nt' rl' rts' h
    injection h with h0
    injection h0 with h1 h0
    injection h0 with h2 h0
    injection h0 with h3 h4
    exact h3.symm
  | cons tgt pending ih =>
    intro nt rl rts nt' rl' rts' h
    rcases hrules : rules_for_target rs tgt ut true with _ | ⟨r0, rrest⟩
    · rw [processPass_unfold_cons_none hrules] at h
      exact Except.noConfusion h
    · rcases hscan : scanRules tA rts (r0 :: rrest) nt false true with ⟨nt2, done2, cb⟩
      rw [processPass_unfold_cons hrules hscan] at h
      rcases cb with _ | _
      · rw [if_neg (by simp)] at h
        rcases hd2 : done2 with _ | _
        · rw [hd2] at h
          exact ih h
        · rw [hd2] at h
          have := (processPass_basic h).2.2.2 rfl
          exact Bool.noConfusion this
      · rw [if_pos rfl] at h
        have := (processPass_basic h).2.2.2 rfl
        exact Bool.noConfusion this

lemma needed_to_build_eq {α : Type} (rs : List (Rule α)) (target : Label) (ut um : Bool) :
    needed_to_build rs target ut um =
      solveLoop rs ut (needed_fuel rs (dedupL (targets_match rs target um)))
        (dedupL (targets_match rs target um)) [] [] := rfl

lemma dedupAux_mem_sub {x : Label} : ∀ {ls seen : List Label}, x ∈ dedupAux seen ls → x ∈ ls := by
  intro ls
  induction ls with
  | nil =>
    intro seen h
    simp [dedupAux] at h
  | cons l rest ih =>
    intro seen h
    simp only [dedupAux] at h
    by_cases hm : memL l seen = true
    · rw [if_pos hm] at h
      exact List.mem_cons_of_mem _ (ih h)
    · rw [if_neg hm] at h
      rcases List.mem_cons.mp h with rfl | h2
      · exact List.mem_cons_self _ _
      · exact List.mem_cons_of_mem _ (ih h2)

lemma dedupL_mem_sub {x : Label} {ls : List Label} (h : x ∈ dedupL ls) : x ∈ ls :=
  dedupAux_mem_sub h

lemma universe_mem_dep {α : Type} {rs : List (Rule α)} (seeds0 : List Label) {r : Rule α}
    {d : Label} (hr : r ∈ rs) (hd : d ∈ r.deps) :
    memL d (solveUniverse rs seeds0) = true := by
  unfold solveUniverse
  rw [memL_dedupL, memL_append]
  refine Bool.or_eq_true_iff.mpr (Or.inr ?_)
  apply mem_imp_memL
  rw [List.mem_flatten]
  exact ⟨r.deps, List.mem_map_of_mem _ hr, hd⟩

lemma universe_mem_seed {α : Type} (rs : List (Rule α)) {seeds0 : List Label} {t : Label}
    (h : memL t seeds0 = true) : memL t (solveUniverse rs seeds0) = true := by
  unfold solveUniverse
  rw [memL_dedupL, memL_append, h]
  rfl

lemma processPass_not_done_pending {α : Type} {rs : List (Rule α)} {ut : Bool} {tA : List Label} :
    ∀ {pending nt : List Label} {rl : List (Rule α)} {rts : List Label}
      {nt' : List Label} {rl' : List (Rule α)} {rts' : List Label},
      processPass rs ut tA pending nt rl rts false = Except.ok ((nt', rl', rts', false)) →
      ∀ t ∈ pending, memL t nt' = true := by
  intro pending
  induction pending with
  | nil =>
    intro nt rl rts nt' rl' rts' h t ht
    cases ht
  | cons tgt pending ih =>
    intro nt rl rts nt' rl' rts' h t ht
    rcases hrules : rules_for_target rs tgt ut true with _ | ⟨r0, rrest⟩
    · rw [processPass_unfold_cons_none hrules] at h
      exact Except.noConfusion h
    · rcases hscan : scanRules tA rts (r0 :: rrest) nt false true with ⟨nt2, done2, cb⟩
      rw [processPass_unfold_cons hrules hscan] at h
      rcases cb with _ | _
      · rw [if_neg (by simp)] at h
        rcases hd2 : done2 with _ | _
        · rw [hd2] at h
          rcases List.mem_cons.mp ht with rfl | ht2
          · exact (processPass_basic h).1 t (memL_addL_self t nt2)
          · exact ih h t ht2
        · rw [hd2] at h
          have := (processPass_basic h).2.2.2 rfl
          exact Bool.noConfusion this
      · rw [if_pos rfl] at h
        have := (processPass_basic h).2.2.2 rfl
        exact Bool.noConfusion this

lemma Aligned_cover {α : Type} {rs : List (Rule α)} {ut : Bool} {acc sats : List Label}
    {rl : List (Rule α)} (h : Aligned rs ut acc sats rl) :
    ∀ x, memL x sats = true → ∃ r ∈ rl, (label_match x r.target).isSome = true := by
  induction h with
  | nil acc =>
    intro x hx
    rw [memL_nil] at hx
    exact Bool.noConfusion hx
  | cons acc t ts r rl hm hr hready hrest ih =>
    intro x hx
    rw [memL_cons] at hx
    rcases Bool.or_eq_true_iff.mp hx with h1 | h1
    · refine ⟨r, List.mem_cons_self _ _, ?_⟩
      rw [label_match_congr (labelBEq_iff.mp h1)]
      exact hm
    · obtain ⟨r2, hr2, hm2⟩ := ih x h1
      exact ⟨r2, List.mem_cons_of_mem _ hr2, hm2⟩

lemma Aligned_depsMatch {α : Type} {rs : List (Rule α)} {ut : Bool} {acc sats : List Label}
    {rl : List (Rule α)} (h : Aligned rs ut acc sats rl) :
    ∀ accR : List Label,
      (∀ x, memL x acc = true → ∃ t ∈ accR, (label_match x t).isSome = true) →
      depsMatchFrom accR rl := by
  induction h with
  | nil acc =>
    intro accR hco
    exact True.intro
  | cons acc t ts r rl hm hr hready hrest ih =>
    intro accR hco
    simp only [depsMatchFrom]
    refine ⟨?_, ?_⟩
    · intro d hd
      exact hco d (hready r hr d hd)
    · apply ih
      intro x hx
      rw [memL_append, memL_cons] at hx
      rcases Bool.or_eq_true_iff.mp hx with h1 | h1
      · obtain ⟨t2, ht2, hm2⟩ := hco x h1
        exact ⟨t2, List.mem_append_left _ ht2, hm2⟩
      · rcases Bool.or_eq_true_iff.mp h1 with h2 | h2
        · refine ⟨r.target, List.mem_append_right _ (List.mem_cons_self _ _), ?_⟩
          rw [label_match_congr (labelBEq_iff.mp h2)]
          exact hm
        · rw [memL_nil] at h2
          exact Bool.noConfusion h2

lemma solveLoop_empty_eq {α : Type} {rs : List (Rule α)} {ut : Bool} {fuel : Nat}
    {targets : List Label} {rl : List (Rule α)} {rts : List Label}
    (h : (targets.filter (fun t => !memL t rts)).isEmpty = true) :
    solveLoop rs ut (fuel + 1) targets rl rts = Except.ok (rl) := by
  simp [solveLoop, h]

lemma solveLoop_err_eq {α : Type} {rs : List (Rule α)} {ut : Bool} {fuel : Nat}
    {targets : List Label} {rl : List (Rule α)} {rts : List Label} {e : SolveErr α}
    (hne : (targets.filter (fun t => !memL t rts)).isEmpty = false)
    (hpp : processPass rs ut (targets.filter (fun t => !memL t rts))
      (targets.filter (fun t => !memL t rts)) [] rl rts false = Except.error e) :
    solveLoop rs ut (fuel + 1) targets rl rts = Except.error e := by
  simp [solveLoop, hne, hpp]

lemma solveLoop_step_eq {α : Type} {rs : List (Rule α)} {ut : Bool} {fuel : Nat}
    {targets : List Label} {rl : List (Rule α)} {rts : List Label}
    {nt : List Label} {rl2 : List (Rule α)} {rts2 : List Label}
    (hne : (targets.filter (fun t => !memL t rts)).isEmpty = false)
    (hpp : processPass rs ut (targets.filter (fun t => !memL t rts))
      (targets.filter (fun t => !memL t rts)) [] rl rts false =
      Except.ok ((nt, rl2, rts2, true))) :
    solveLoop rs ut (fuel + 1) targets rl rts = solveLoop rs ut fuel nt rl2 rts2 := by
  simp [solveLoop, hne, hpp]

lemma solveLoop_circ_eq {α : Type} {rs : List (Rule α)} {ut : Bool} {fuel : Nat}
    {targets : List Label} {rl : List (Rule α)} {rts : List Label}
    {nt : List Label} {rl2 : List (Rule α)} {rts2 : List Label}
    (hne : (targets.filter (fun t => !memL t rts)).isEmpty = false)
    (hpp : processPass rs ut (targets.filter (fun t => !memL t rts))
      (targets.filter (fun t => !memL t rts)) [] rl rts false =
      Except.ok ((nt, rl2, rts2, false))) :
    solveLoop rs ut (fuel + 1) targets rl rts =
      Except.error (SolveErr.circular nt rl2) := by
  simp [solveLoop, hne, hpp]

lemma measure_step {α : Type} {rs : List (Rule α)} {ut : Bool} (seeds0 : List Label)
    {targets nt : List Label} {rl rl2 : List (Rule α)} {rts rts2 : List Label}
    (hpp : processPass rs ut (targets.filter (fun t => !memL t rts))
      (targets.filter (fun t => !memL t rts)) [] rl rts false =
      Except.ok ((nt, rl2, rts2, true)))
    (hU : ∀ t ∈ targets, memL t (solveUniverse rs seeds0) = true) :
    solveMeasure rs seeds0 nt rts2 < solveMeasure rs seeds0 targets rts := by
  have hpre : ∀ t ∈ targets.filter (fun t => !memL t rts), memL t rts = false :=
    fun t ht => (mem_filter_memL ht).2
  obtain ⟨m1, m2, m3, m4⟩ := processPass_basic hpp
  have hkeep : ∀ u, (memL u targets || memL u rts) = true →
      (memL u nt || memL u rts2) = true := by
    intro u hu
    rcases Bool.or_eq_true_iff.mp hu with h1 | h1
    · rcases memL_filter_split u targets rts h1 with h2 | h2
      · obtain ⟨w, hw, hbw⟩ := memL_exists h2
        rcases m3 w hw with h3 | h3
        · refine Bool.or_eq_true_iff.mpr (Or.inl ?_)
          rw [memL_congr hbw]
          exact h3
        · refine Bool.or_eq_true_iff.mpr (Or.inr ?_)
          rw [memL_congr hbw]
          exact h3
      · exact Bool.or_eq_true_iff.mpr (Or.inr (m2 u h2))
    · exact Bool.or_eq_true_iff.mpr (Or.inr (m2 u h1))
  have hs1mono : ∀ u ∈ solveUniverse rs seeds0,
      (fun u => !memL u rts2) u = true → (fun u => !memL u rts) u = true := by
    intro u hu hq
    have hq2 : (!memL u rts2) = true := hq
    show (!memL u rts) = true
    rcases hc : memL u rts with _ | _
    · rfl
    · rw [m2 u hc] at hq2
      exact Bool.noConfusion hq2
  have hs2mono : ∀ u ∈ solveUniverse rs seeds0,
      (fun u => !(memL u nt || memL u rts2)) u = true →
      (fun u => !(memL u targets || memL u rts)) u = true := by
    intro u hu hq
    have hq2 : (!(memL u nt || memL u rts2)) = true := hq
    show (!(memL u targets || memL u rts)) = true
    rcases hc : (memL u targets || memL u rts) with _ | _
    · rfl
    · rw [hkeep u hc] at hq2
      exact Bool.noConfusion hq2
  have hs1le : ((solveUniverse rs seeds0).filter (fun u => !memL u rts2)).length ≤
      ((solveUniverse rs seeds0).filter (fun u => !memL u rts)).length :=
    filter_length_le _ _ _ hs1mono
  have hs2le : ((solveUniverse rs seeds0).filter
        (fun u => !(memL u nt || memL u rts2))).length ≤
      ((solveUniverse rs seeds0).filter
        (fun u => !(memL u targets || memL u rts))).length :=
    filter_length_le _ _ _ hs2mono
  rcases processPass_progress hpp hpre with ⟨t, ht, hf, htt⟩ |
    ⟨d, ⟨r, hrr, hdd⟩, hd1, hd2, hd3⟩
  · have htU : memL t (solveUniverse rs seeds0) = true :=
      hU t (List.mem_of_mem_filter ht)
    obtain ⟨u, hu, hbu⟩ := memL_exists htU
    have hs1lt : ((solveUniverse rs seeds0).filter (fun u => !memL u rts2)).length <
        ((solveUniverse rs seeds0).filter (fun u => !memL u rts)).length := by
      refine filter_length_lt _ _ _ hs1mono u hu ?_ ?_
      · show (!memL u rts) = true
        rw [← memL_congr hbu, hf]
        rfl
      · show (!memL u rts2) = false
        rw [← memL_congr hbu, htt]
        rfl
    unfold solveMeasure
    omega
  · have hdU : memL d (solveUniverse rs seeds0) = true := universe_mem_dep seeds0 hrr hdd
    have hdT : memL d targets = false := by
      rcases hc : memL d targets with _ | _
      · rfl
      · rcases memL_filter_split d targets rts hc with h2 | h2
        · rw [h2] at hd2
          exact Bool.noConfusion hd2
        · rw [h2] at hd1
          exact Bool.noConfusion hd1
    obtain ⟨u, hu, hbu⟩ := memL_exists hdU
    have hs2lt : ((solveUniverse rs seeds0).filter
          (fun u => !(memL u nt || memL u rts2))).length <
        ((solveUniverse rs seeds0).filter
          (fun u => !(memL u targets || memL u rts))).length := by
      refine filter_length_lt _ _ _ hs2mono u hu ?_ ?_
      · show (!(memL u targets || memL u rts)) = true
        rw [← memL_congr hbu, hdT, ← memL_congr hbu, hd1]
        rfl
      · show (!(memL u nt || memL u rts2)) = false
        rw [← memL_congr hbu, hd3]
        rfl
    unfold solveMeasure
    omega

lemma solveLoop_sound {α : Type} {rs : List (Rule α)} {ut : Bool} :
    ∀ (fuel : Nat) {targets : List Label} {rl : List (Rule α)} {rts : List Label}
      {rl' : List (Rule α)},
      solveLoop rs ut fuel targets rl rts = Except.ok (rl') →
      Aligned rs ut [] rts rl → NodupL rts → NodupL targets →
      ∃ rts', Aligned rs ut [] rts' rl' ∧ NodupL rts' ∧
        (∀ x, memL x rts = true → memL x rts' = true) ∧
        (∀ t, memL t targets = true → memL t rts' = true) := by
  intro fuel
  induction fuel with
  | zero =>
    intro targets rl rts rl' h _ _ _
    exact Except.noConfusion h
  | succ fuel ih =>
    intro targets rl rts rl' h ha hn hnt
    rcases hE : (targets.filter (fun t => !memL t rts)).isEmpty with _ | _
    · rcases hpp : processPass rs ut (targets.filter (fun t => !memL t rts))
          (targets.filter (fun t => !memL t rts)) [] rl rts false with
        e | ⟨nt, rl2, rts2, done⟩
      · rw [solveLoop_err_eq hE hpp] at h
        exact Except.noConfusion h
      · rcases done with _ | _
        · rw [solveLoop_circ_eq hE hpp] at h
          exact Except.noConfusion h
        · rw [solveLoop_step_eq hE hpp] at h
          have hpre : ∀ t ∈ targets.filter (fun t => !memL t rts), memL t rts = false :=
            fun t ht => (mem_filter_memL ht).2
          obtain ⟨ha2, hn2, hnt2⟩ :=
            processPass_aligned hpp ha hn (NodupL_filter _ hnt) hpre List.Pairwise.nil
          obtain ⟨rts', ha', hn', hmono, hcov⟩ := ih h ha2 hn2 hnt2
          obtain ⟨m1, m2, m3, m4⟩ := processPass_basic hpp
          refine ⟨rts', ha', hn', ?_, ?_⟩
          · intro x hx
            exact hmono x (m2 x hx)
          · intro t ht
            obtain ⟨w, hw, hbw⟩ := memL_exists ht
            rcases memL_filter_split w targets rts (mem_imp_memL hw) with h2 | h2
            · obtain ⟨v, hv, hbv⟩ := memL_exists h2
              rcases m3 v hv with h3 | h3
              · rw [memL_congr hbw]
                refine hcov w ?_
                rw [memL_congr hbv]
                exact h3
              · rw [memL_congr hbw]
                refine hmono w ?_
                rw [memL_congr hbv]
                exact h3
            · rw [memL_congr hbw]
              exact hmono w (m2 w h2)
    · rw [solveLoop_empty_eq hE] at h
      injection h with h0
      subst h0
      refine ⟨rts, ha, hn, fun x hx => hx, ?_⟩
      intro t ht
      obtain ⟨w, hw, hbw⟩ := memL_exists ht
      rcases memL_filter_split w targets rts (mem_imp_memL hw) with h2 | h2
      · rw [List.isEmpty_iff] at hE
        rw [hE, memL_nil] at h2
        exact Bool.noConfusion h2
      · rw [memL_congr hbw]
        exact h2

lemma solveLoop_empty_err {α : Type} {rs : List (Rule α)} {ut : Bool} {seedsR : List Label} :
    ∀ (fuel : Nat) {targets : List Label} {rl : List (Rule α)} {rts : List Label} {t : Label},
      solveLoop rs ut fuel targets rl rts = Except.error (SolveErr.emptyRules t) →
      (∀ x ∈ targets, Reach rs ut seedsR x) →
      Reach rs ut seedsR t ∧ rules_for_target rs t ut true = [] := by
  intro fuel
  induction fuel with
  | zero =>
    intro targets rl rts t h hR
    injection h with h0
    exact SolveErr.noConfusion h0
  | succ fuel ih =>
    intro targets rl rts t h hR
    rcases hE : (targets.filter (fun t => !memL t rts)).isEmpty with _ | _
    · rcases hpp : processPass rs ut (targets.filter (fun t => !memL t rts))
          (targets.filter (fun t => !memL t rts)) [] rl rts false with
        e | ⟨nt, rl2, rts2, done⟩
      · rw [solveLoop_err_eq hE hpp] at h
        injection h with h0
        obtain ⟨t2, ht2, he, hrules⟩ := processPass_err_shape hpp
        rw [he] at h0
        injection h0 with h1
        subst h1
        exact ⟨hR t2 (List.mem_of_mem_filter ht2), hrules⟩
      · rcases done with _ | _
        · rw [solveLoop_circ_eq hE hpp] at h
          injection h with h0
          exact SolveErr.noConfusion h0
        · rw [solveLoop_step_eq hE hpp] at h
          refine ih h ?_
          intro x hx
          rcases processPass_nt_elems hpp x hx with h2 | h2 | ⟨t2, ht2, r, hr, hd⟩
          · cases h2
          · exact hR x (List.mem_of_mem_filter h2)
          · exact Reach.step t2 x (hR t2 (List.mem_of_mem_filter ht2))
              ⟨r, hr, x, hd, labelBEq_refl x⟩
    · rw [solveLoop_empty_eq hE] at h
      exact Except.noConfusion h

lemma solveLoop_circular_res {α : Type} {rs : List (Rule α)} {ut : Bool} :
    ∀ (fuel : Nat) {targets : List Label} {rl : List (Rule α)} {rts : List Label}
      {ts : List Label} {rl2 : List (Rule α)},
      solveLoop rs ut fuel targets rl rts = Except.error (SolveErr.circular ts rl2) →
      ts ≠ [] := by
  intro fuel
  induction fuel with
  | zero =>
    intro targets rl rts ts rl2 h
    injection h with h0
    exact SolveErr.noConfusion h0
  | succ fuel ih =>
    intro targets rl rts ts rl2 h
    rcases hE : (targets.filter (fun t => !memL t rts)).isEmpty with _ | _
    · rcases hpp : processPass rs ut (targets.filter (fun t => !memL t rts))
          (targets.filter (fun t => !memL t rts)) [] rl rts false with
        e | ⟨nt, rl3, rts2, done⟩
      · rw [solveLoop_err_eq hE hpp] at h
        injection h with h0
        obtain ⟨t2, ht2, he, hrules⟩ := processPass_err_shape hpp
        rw [he] at h0
        exact SolveErr.noConfusion h0
      · rcases done with _ | _
        · rw [solveLoop_circ_eq hE hpp] at h
          injection h with h0
          injection h0 with h1 h2
          subst h1
          rcases hlist : targets.filter (fun t => !memL t rts) with _ | ⟨t0, rest⟩
          · rw [hlist] at hE
            simp at hE
          · have ht0 : t0 ∈ targets.filter (fun t => !memL t rts) := by
              rw [hlist]
              exact List.mem_cons_self _ _
            exact memL_ne_nil (processPass_not_done_pending hpp t0 ht0)
        · rw [solveLoop_step_eq hE hpp] at h
          exact ih h
    · rw [solveLoop_empty_eq hE] at h
      exact Except.noConfusion h

lemma solveLoop_no_fuel {α : Type} {rs : List (Rule α)} {ut : Bool} (seeds0 : List Label) :
    ∀ (fuel : Nat) {targets : List Label} {rl : List (Rule α)} {rts : List Label},
      solveMeasure rs seeds0 targets rts < fuel →
      (∀ t ∈ targets, memL t (solveUniverse rs seeds0) = true) →
      ¬ (solveLoop rs ut fuel targets rl rts = Except.error (SolveErr.fuel)) := by
  intro fuel
  induction fuel with
  | zero =>
    intro targets rl rts hm hU _
    exact absurd hm (Nat.not_lt_zero _)
  | succ fuel ih =>
    intro targets rl rts hm hU h
    rcases hE : (targets.filter (fun t => !memL t rts)).isEmpty with _ | _
    · rcases hpp : processPass rs ut (targets.filter (fun t => !memL t rts))
          (targets.filter (fun t => !memL t rts)) [] rl rts false with
        e | ⟨nt, rl2, rts2, done⟩
      · rw [solveLoop_err_eq hE hpp] at h
        injection h with h0
        obtain ⟨t2, ht2, he, hrules⟩ := processPass_err_shape hpp
        rw [he] at h0
        exact SolveErr.noConfusion h0
      · rcases done with _ | _
        · rw [solveLoop_circ_eq hE hpp] at h
          injection h with h0
          exact SolveErr.noConfusion h0
        · rw [solveLoop_step_eq hE hpp] at h
          have hlt := measure_step seeds0 hpp hU
          have hU2 : ∀ t ∈ nt, memL t (solveUniverse rs seeds0) = true := by
            intro x hx
            rcases processPass_nt_elems hpp x hx with h2 | h2 | ⟨t2, ht2, r, hr, hd⟩
            · cases h2
            · exact hU x (List.mem_of_mem_filter h2)
            · exact universe_mem_dep seeds0 (rules_for_target_useMatch hr).1 hd
          exact ih (by omega) hU2 h
    · rw [solveLoop_empty_eq hE] at h
      exact Except.noConfusion h

lemma solveLoop_ok {α : Type} {rs : List (Rule α)} {ut : Bool} (seeds0 seedsR : List Label)
    (rank : Label → Nat)
    (hrank : ∀ a b, Reach rs ut seedsR a → Step rs ut a b → rank b < rank a)
    (hrules : ∀ t, Reach rs ut seedsR t → rules_for_target rs t ut true ≠ []) :
    ∀ (fuel : Nat) {targets : List Label} {rl : List (Rule α)} {rts : List Label},
      solveMeasure rs seeds0 targets rts < fuel →
      (∀ t ∈ targets, memL t (solveUniverse rs seeds0) = true) →
      (∀ t ∈ targets, Reach rs ut seedsR t) →
      ∃ rl', solveLoop rs ut fuel targets rl rts = Except.ok (rl') := by
  intro fuel
  induction fuel with
  | zero =>
    intro targets rl rts hm hU hR
    exact absurd hm (Nat.not_lt_zero _)
  | succ fuel ih =>
    intro targets rl rts hm hU hR
    rcases hE : (targets.filter (fun t => !memL t rts)).isEmpty with _ | _
    · rcases hpp : processPass rs ut (targets.filter (fun t => !memL t rts))
          (targets.filter (fun t => !memL t rts)) [] rl rts false with
        e | ⟨nt, rl2, rts2, done⟩
      · obtain ⟨t2, ht2, he, hrulesEmpty⟩ := processPass_err_shape hpp
        have hReach : Reach rs ut seedsR t2 := hR t2 (List.mem_of_mem_filter ht2)
        exact absurd hrulesEmpty (hrules t2 hReach)
      · rcases done with _ | _
        · rcases hao : (targets.filter (fun t => !memL t rts)).argmin rank with _ | tm
          · rw [List.argmin_eq_none] at hao
            rw [hao] at hE
            simp at hE
          · have hntpre : ∀ x, memL x ([] : List Label) = true →
                memL x (targets.filter (fun t => !memL t rts)) = true := by
              intro x hx
              rw [memL_nil] at hx
              exact Bool.noConfusion hx
            have hpend : ∀ t ∈ targets.filter (fun t => !memL t rts),
                memL t (targets.filter (fun t => !memL t rts)) = true :=
              fun t ht => mem_imp_memL ht
            have hstuck := processPass_stuck hpp hntpre hpend
            have htmopt : tm ∈ (targets.filter (fun t => !memL t rts)).argmin rank := by
              rw [hao]
              rfl
            have htm : tm ∈ targets.filter (fun t => !memL t rts) := List.argmin_mem htmopt
            obtain ⟨r, hr, d, hd, hdrts, hdTA⟩ := hstuck tm htm
            obtain ⟨u, hu, hbu⟩ := memL_exists hdTA
            have hstep : Step rs ut tm u := ⟨r, hr, d, hd, hbu⟩
            have h1 : rank u < rank tm :=
              hrank tm u (hR tm (List.mem_of_mem_filter htm)) hstep
            have h2 : rank tm ≤ rank u := List.le_of_mem_argmin hu htmopt
            exact absurd h1 (by omega)
        · have hlt := measure_step seeds0 hpp hU
          have hU2 : ∀ t ∈ nt, memL t (solveUniverse rs seeds0) = true := by
            intro x hx
            rcases processPass_nt_elems hpp x hx with h2 | h2 | ⟨t2, ht2, r, hr, hd⟩
            · cases h2
            · exact hU x (List.mem_of_mem_filter h2)
            · exact universe_mem_dep seeds0 (rules_for_target_useMatch hr).1 hd
          have hR2 : ∀ t ∈ nt, Reach rs ut seedsR t := by
            intro x hx
            rcases processPass_nt_elems hpp x hx with h2 | h2 | ⟨t2, ht2, r, hr, hd⟩
            · cases h2
            · exact hR x (List.mem_of_mem_filter h2)
            · exact Reach.step t2 x (hR t2 (List.mem_of_mem_filter ht2))
                ⟨r, hr, x, hd, labelBEq_refl x⟩
          obtain ⟨rl', hrec⟩ := @ih nt rl2 rts2 (by omega) hU2 hR2
          exact ⟨rl', by rw [solveLoop_step_eq hE hpp]; exact hrec⟩
    · exact ⟨rl, solveLoop_empty_eq hE⟩

lemma measure_lt_fuel {α : Type} (rs : List (Rule α)) (seeds : List Label) :
    solveMeasure rs seeds seeds [] < needed_fuel rs seeds := by
  unfold solveMeasure needed_fuel
  have h1 := List.length_filter_le (fun u => !memL u ([] : List Label))
    (solveUniverse rs seeds)
  have h2 := List.length_filter_le
    (fun u => !(memL u seeds || memL u ([] : List Label))) (solveUniverse rs seeds)
  omega

/-- The query label of the solver examples: p:a/x. -/
def exPA : Label := ⟨"p", none, "a", none, "x", none, none⟩

/-- A second concrete label: p:b/x. -/
def exPB : Label := ⟨"p", none, "b", none, "x", none, none⟩

/-- A third concrete label: p:b/y. -/
def exPBy : Label := ⟨"p", none, "b", none, "y", none, none⟩

/-- A wildcard-name rule target: p:*/y. -/
def exWStar : Label := ⟨"p", none, "*", none, "y", none, none⟩

/-- The rule for the query of the wildcard example: p:a/x needs p:b/y. -/
def exWRuleA : Rule Unit := ⟨exPA, none, [exPBy]⟩

/-- The wildcard rule of the wildcard example: p:*/y with no dependencies. -/
def exWRuleStar : Rule Unit := ⟨exWStar, none, []⟩

/-- The wildcard example ruleset for C1. -/
def exWRs : List (Rule Unit) := [exWRuleA, exWRuleStar]

/-- A ruleset whose only rule depends on a label that no rule targets. -/
def exMissRs : List (Rule Unit) := [⟨exPA, none, [exPB]⟩]

/-- A two-rule circular ruleset: p:a/x and p:b/x need each other. -/
def exCycRs : List (Rule Unit) := [⟨exPA, none, [exPB]⟩, ⟨exPB, none, [exPA]⟩]

/-- The single dependency-free rule of the success example. -/
def exOkRule : Rule Unit := ⟨exPB, none, []⟩

/-- A one-rule acyclic ruleset on which the solver must succeed. -/
def exOkRs : List (Rule Unit) := [exOkRule]

/-- A dependency-free wildcard rule p:*/x for the C9 example. -/
def exC9Wild : Rule Unit := ⟨⟨"p", none, "*", none, "x", none, none⟩, none, []⟩

/-- A ruleset in which both a concrete rule and a wildcard rule match the
query p:a/x. -/
def exC9Rs : List (Rule Unit) := [⟨exPA, none, []⟩, exC9Wild]

/-- C1 (counterexample): a successful needed_to_build run on a ruleset with
a wildcard rule target.  The returned list places the wildcard rule
(target p:*/y) before the rule for p:a/x, whose dependency p:b/y is not
the target of any earlier rule in the list — it only matches the wildcard
target p:*/y — so the claim's "is the target of a rule appearing earlier"
reading of soundness fails on this run. -/
theorem C1_counterexample_dep_not_exact_target :
    needed_to_build exWRs exPA true false = Except.ok ([exWRuleStar, exWRuleA]) ∧
    depsExactFrom ([] : List Label) [exWRuleStar, exWRuleA] = false := by
  exact ⟨rfl, rfl⟩

/-- C1 (amended): solver soundness with matching in place of equality.
When needed_to_build returns a rule list, every target produced by
targets_match for the query matches the target of at least one rule of
the list, and every dependency of each returned rule matches (in the
wildcard sense of Label.match) the target of a rule appearing earlier in
the list. -/
theorem C1_solver_soundness {α : Type} (rs : List (Rule α)) (target : Label) (ut um : Bool)
    (rl : List (Rule α)) (h : needed_to_build rs target ut um = Except.ok (rl)) :
    (∀ t ∈ targets_match rs target um, ∃ r ∈ rl, (label_match t r.target).isSome = true) ∧
    depsMatchFrom ([] : List Label) rl := by
  rw [needed_to_build_eq] at h
  obtain ⟨rts', ha', hn', hmono, hcov⟩ :=
    solveLoop_sound _ h (Aligned.nil []) List.Pairwise.nil (dedupL_nodup _)
  constructor
  · intro t ht
    have h1 : memL t (dedupL (targets_match rs target um)) = true := by
      rw [memL_dedupL]
      exact mem_imp_memL ht
    exact Aligned_cover ha' t (hcov t h1)
  · refine Aligned_depsMatch ha' [] ?_
    intro x hx
    rw [memL_nil] at hx
    exact Bool.noConfusion hx

theorem C1_witness :
    (∀ t ∈ targets_match exWRs exPA false, ∃ r ∈ [exWRuleStar, exWRuleA],
      (label_match t r.target).isSome = true) ∧
    depsMatchFrom ([] : List Label) [exWRuleStar, exWRuleA] :=
  C1_solver_soundness exWRs exPA true false [exWRuleStar, exWRuleA] rfl

/-- C9: single rule per satisfied target.  On every successful
needed_to_build run the returned rule list is aligned with the list of
satisfied targets: the targets are pairwise distinct as Python labels,
each carries exactly one rule of the list (the lengths agree), that rule
is one of the rules matching the target, and the dependencies of every
rule matching the target — not only the chosen one — lie among the
previously satisfied targets. -/
theorem C9_single_rule_per_target {α : Type} (rs : List (Rule α)) (target : Label)
    (ut um : Bool) (rl : List (Rule α))
    (h : needed_to_build rs target ut um = Except.ok (rl)) :
    ∃ sats : List Label, NodupL sats ∧ Aligned rs ut [] sats rl ∧
      rl.length = sats.length := by
  rw [needed_to_build_eq] at h
  obtain ⟨rts', ha', hn', hm1, hm2⟩ :=
    solveLoop_sound _ h (Aligned.nil []) List.Pairwise.nil (dedupL_nodup _)
  exact ⟨rts', hn', ha', (Aligned_length ha').symm⟩

theorem C9_witness :
    ∃ sats : List Label, NodupL sats ∧ Aligned exC9Rs true [] sats [exC9Wild] ∧
      ([exC9Wild] : List (Rule Unit)).length = sats.length :=
  C9_single_rule_per_target exC9Rs exPA true false [exC9Wild] rfl

/-- C2 (counterexample): a run on an acyclic ruleset in which the target
p:b/x has no rule at all.  The claim says every failure is the
CircularOrIncomplete error, but this run raises the distinct "Rule list
is empty for target" error instead. -/
theorem C2_counterexample_missing_rule_error :
    needed_to_build exMissRs exPA true true =
      Except.error (SolveErr.emptyRules exPB) := rfl

/-- C2 (amended): solver completeness or failure.  (i) If some rank
function decreases across every dependency step between reachable labels
(the reachable graph is acyclic) and every reachable target has at least
one matching rule, needed_to_build succeeds.  (ii) A "Rule list is empty"
failure names a reachable target with no matching rules — this failure
mode is missing from the claim.  (iii) A CircularOrIncomplete failure
reports a non-empty residual target set.  (iv) The loop counter of the
embedding never runs out, so the Python while loop always terminates with
one of the above outcomes. -/
theorem C2_completeness_or_failure {α : Type} (rs : List (Rule α)) (target : Label)
    (ut um : Bool) :
    ((∃ rank : Label → Nat, ∀ a b, Reach rs ut (targets_match rs target um) a →
        Step rs ut a b → rank b < rank a) →
      (∀ t, Reach rs ut (targets_match rs target um) t →
        rules_for_target rs t ut true ≠ []) →
      ∃ rl, needed_to_build rs target ut um = Except.ok (rl)) ∧
    (∀ t, needed_to_build rs target ut um = Except.error (SolveErr.emptyRules t) →
      Reach rs ut (targets_match rs target um) t ∧
        rules_for_target rs t ut true = []) ∧
    (∀ ts rl2, needed_to_build rs target ut um =
      Except.error (SolveErr.circular ts rl2) → ts ≠ []) ∧
    (¬ (needed_to_build rs target ut um = Except.error (SolveErr.fuel))) := by
  refine ⟨?_, ?_, ?_, ?_⟩
  · rintro ⟨rank, hrank⟩ hrules
    have hU : ∀ t ∈ dedupL (targets_match rs target um),
        memL t (solveUniverse rs (dedupL (targets_match rs target um))) = true :=
      fun t ht => universe_mem_seed rs (mem_imp_memL ht)
    have hR : ∀ t ∈ dedupL (targets_match rs target um),
        Reach rs ut (targets_match rs target um) t :=
      fun t ht => Reach.seed t (dedupL_mem_sub ht)
    obtain ⟨rl, hok⟩ := solveLoop_ok (dedupL (targets_match rs target um))
      (targets_match rs target um) rank hrank hrules _
      (measure_lt_fuel rs (dedupL (targets_match rs target um))) hU hR
    exact ⟨rl, by rw [needed_to_build_eq]; exact hok⟩
  · intro t h
    rw [needed_to_build_eq] at h
    exact solveLoop_empty_err _ h (fun x hx => Reach.seed x (dedupL_mem_sub hx))
  · intro ts rl2 h
    rw [needed_to_build_eq] at h
    exact solveLoop_circular_res _ h
  · intro h
    rw [needed_to_build_eq] at h
    exact solveLoop_no_fuel (dedupL (targets_match rs target um)) _
      (measure_lt_fuel rs (dedupL (targets_match rs target um)))
      (fun t ht => universe_mem_seed rs (mem_imp_memL ht)) h

theorem C2_witness :
    (∃ rl, needed_to_build exOkRs exPB true true = Except.ok (rl)) ∧
    (Reach exMissRs true (targets_match exMissRs exPA true) exPB ∧
      rules_for_target exMissRs exPB true true = []) ∧
    ([exPB, exPA] ≠ ([] : List Label)) ∧
    (¬ (needed_to_build exCycRs exPA true true = Except.error (SolveErr.fuel))) := by
  refine ⟨?_, ?_, ?_, ?_⟩
  · refine (C2_completeness_or_failure exOkRs exPB true true).1 ⟨fun _ => 0, ?_⟩ ?_
    · intro a b hra hstep
      obtain ⟨r, hr, d, hd, hb⟩ := hstep
      have hr3 : r = exOkRule := List.mem_singleton.mp (rules_for_target_useMatch hr).1
      subst hr3
      exact absurd hd (by simp [exOkRule])
    · intro t ht
      have key : labelBEq t exPB = true := by
        induction ht with
        | seed l hl =>
          have he : targets_match exOkRs exPB true = [exPB] := rfl
          rw [he, List.mem_singleton] at hl
          subst hl
          exact labelBEq_refl _
        | step a b hra hstep ih =>
          obtain ⟨r, hr, d, hd, hb⟩ := hstep
          have hr3 : r = exOkRule := List.mem_singleton.mp (rules_for_target_useMatch hr).1
          subst hr3
          exact absurd hd (by simp [exOkRule])
      intro hcontra
      have hmem : exOkRule ∈ rules_for_target exOkRs t true true := by
        unfold rules_for_target
        rw [if_pos rfl, List.mem_filter]
        refine ⟨List.mem_cons_self _ _, ?_⟩
        show (label_match t exOkRule.target).isSome = true
        rw [label_match_congr (labelBEq_iff.mp key)]
        decide
      rw [hcontra] at hmem
      cases hmem
  · exact (C2_completeness_or_failure exMissRs exPA true true).2.1 exPB rfl
  · exact (C2_completeness_or_failure exCycRs exPA true true).2.2.1 [exPB, exPA] [] rfl
  · exact (C2_completeness_or_failure exCycRs exPA true true).2.2.2

end Muddle
